import Mathlib

namespace WFA2

/-! ### Definitions -/

/-- Elementary alignment operations making up a CIGAR: match, mismatch,
insertion (consumes a text character) and deletion (consumes a pattern
character). -/
inductive Op : Type
  | eq
  | sub
  | ins
  | del
deriving DecidableEq, Repr

/-- Gap-lineal penalty set: mismatch penalty `x` and indel penalty `b`,
both positive (the construction-time validity check from spec section 7).
The edit metric is the instance `x = b = 1`. -/
structure LinealPen : Type where
  x : ℕ
  b : ℕ
  x_pos : 0 < x
  b_pos : 0 < b

/-- The edit-distance penalty set (unit mismatch and indel costs). -/
def editPen : LinealPen := ⟨1, 1, Nat.one_pos, Nat.one_pos⟩

/-- Cost of one alignment operation under a gap-lineal penalty set. -/
def opCost (pen : LinealPen) : Op → ℕ
  | .eq => 0
  | .sub => pen.x
  | .ins => pen.b
  | .del => pen.b

/-- Total cost of a list of operations. -/
def opsCost (pen : LinealPen) (ops : List Op) : ℕ :=
  (ops.map (opCost pen)).sum

/-- Replaying a CIGAR: `alignsB ops p t` holds when the operation list
consumes exactly the pattern `p` and the text `t` (match requires equal
characters, mismatch requires distinct characters). -/
def alignsB : List Op → List Char → List Char → Bool
  | [], [], [] => true
  | .eq :: ops, a :: p, c :: t => a == c && alignsB ops p t
  | .sub :: ops, a :: p, c :: t => a != c && alignsB ops p t
  | .ins :: ops, p, _ :: t => alignsB ops p t
  | .del :: ops, _ :: p, t => alignsB ops p t
  | _, _, _ => false

/-- Inner row of the reference dynamic program: given the head pattern
character `a` and the previous row `dpP = editDP pen p`, computes
`editDP pen (a :: p)` by structural recursion on the text. -/
def editDProw (pen : LinealPen) (a : Char) (dpP : List Char → ℕ) : List Char → ℕ
  | [] => pen.b + dpP []
  | c :: t =>
      min ((if a = c then 0 else pen.x) + dpP t)
        (min (pen.b + editDProw pen a dpP t) (pen.b + dpP (c :: t)))

/-- Reference full dynamic-programming alignment score (classic
Needleman-Wunsch / Levenshtein recurrence) under gap-lineal penalties:
the independent reference of spec section 8. -/
def editDP (pen : LinealPen) : List Char → List Char → ℕ
  | [], t => pen.b * t.length
  | a :: p, t => editDProw pen a (editDP pen p) t

/-- Whether the cell at offset `o` on diagonal `k` is inside the grid and
the next pattern/text characters match there. -/
def matchAt (p t : List Char) (k : ℤ) (o : ℕ) : Bool :=
  decide (o < p.length) && decide (0 ≤ (o : ℤ) + k) &&
    decide ((o : ℤ) + k < (t.length : ℤ)) &&
    (p.getD o (Char.ofNat 0) == t.getD ((o : ℤ) + k).toNat (Char.ofNat 0))

/-- Fuel-driven greedy extension along a diagonal. -/
def extAux (p t : List Char) (k : ℤ) : ℕ → ℕ → ℕ
  | 0, o => o
  | fuel + 1, o => if matchAt p t k o then extAux p t k fuel (o + 1) else o

/-- Greedy extension: the furthest offset reachable from `o` on diagonal
`k` by consuming matching characters only (the free "diagonal extension"
of spec section 4.1). -/
def extendo (p t : List Char) (k : ℤ) (o : ℕ) : ℕ :=
  extAux p t k (p.length - o) o

/-- Reduction strategy selector, from `wavefront_aligner.h`. -/
inductive wavefront_reduction_type : Type
  | wavefront_reduction_none
  | wavefront_reduction_adaptive
deriving DecidableEq, Repr

/-- Wavefront reduction configuration, from `wavefront_aligner.h`
(`int` fields modelled as naturals; the adaptive parameters are
meaningful only as non-negative quantities). -/
structure wavefront_reduction_t : Type where
  reduction_strategy : wavefront_reduction_type
  min_wavefront_length : ℕ
  max_distance_threshold : ℕ
deriving DecidableEq, Repr

/-- Modelled from the spec: a wavefront for one (family, score) pair —
a validity range `[lo, hi]` of diagonals and the furthest-reaching
offset stored per diagonal (`none` for diagonals with no offset).  The
implementation file `wavefront.h` is not part of `src/`. -/
structure WFLayer : Type where
  lo : ℤ
  hi : ℤ
  off : ℤ → Option ℕ

/-- Modelled from the spec: the null wavefront sentinel, which always
reports "no offset" (spec section 3). -/
def nullLayer : WFLayer := ⟨1, 0, fun _ => none⟩

/-- Maximum of two optional offsets (`none` acts as minus infinity). -/
def omax : Option ℕ → Option ℕ → Option ℕ
  | none, v => v
  | some o, none => some o
  | some o, some o2 => some (max o o2)

/-- Modelled from the spec: recurrence candidate on diagonal `k` coming
from a mismatch at score `s − x` on the same diagonal (spec section
4.1); the candidate exists only when both sequences have a character
left to substitute. -/
def candMisF (p t : List Char) (lx : WFLayer) (k : ℤ) : Option ℕ :=
  (lx.off k).bind (fun o =>
    if o < p.length ∧ (o : ℤ) + k < (t.length : ℤ) then some (o + 1) else none)

/-- Modelled from the spec: recurrence candidate from an insertion
(text-consuming gap) at score `s − b` on diagonal `k − 1`. -/
def candInsF (t : List Char) (lb : WFLayer) (k : ℤ) : Option ℕ :=
  (lb.off (k - 1)).bind (fun o =>
    if (o : ℤ) + k ≤ (t.length : ℤ) then some o else none)

/-- Modelled from the spec: recurrence candidate from a deletion
(pattern-consuming gap) at score `s − b` on diagonal `k + 1`. -/
def candDelF (p : List Char) (lb : WFLayer) (k : ℤ) : Option ℕ :=
  (lb.off (k + 1)).bind (fun o =>
    if o < p.length then some (o + 1) else none)

/-- Best recurrence candidate on diagonal `k` (maximum of the three
transitions, the "furthest reaching" rule). -/
def candsOf (p t : List Char) (lx lb : WFLayer) (k : ℤ) : Option ℕ :=
  omax (candMisF p t lx k) (omax (candInsF t lb k) (candDelF p lb k))

/-- Ascending list of the diagonals in a layer's validity range. -/
def diagList (L : WFLayer) : List ℤ :=
  (List.range (L.hi + 1 - L.lo).toNat).map (fun i => L.lo + Int.ofNat i)

/-- Largest offset present in a layer's validity range. -/
def maxOffL (L : WFLayer) : Option ℕ :=
  ((diagList L).filterMap L.off).max?

/-- Whether a diagonal's offset lags the layer maximum `mo` by more than
the adaptive threshold (an absent offset lags infinitely). -/
def laggy (thr mo : ℕ) : Option ℕ → Bool
  | some o => decide (thr < mo - o)
  | none => true

/-- Modelled from the spec: adaptive wavefront reduction (spec section
4.2) — if the layer's diagonal span exceeds `min_wavefront_length`,
every diagonal whose offset lags the layer's maximum offset by more than
`max_distance_threshold` is dropped, and the validity range is narrowed
to the surviving diagonals.  Declared in `wavefront_aligner.h`
(`wavefront_aligner_set_reduction_adaptive`); the implementation file is
not part of `src/`. -/
def wavefront_reduce (min_wavefront_length max_distance_threshold : ℕ)
    (L : WFLayer) : WFLayer :=
  if L.hi + 1 - L.lo ≤ (min_wavefront_length : ℤ) then L
  else
    match maxOffL L with
    | none => L
    | some mo =>
        let kept := (diagList L).filter
          (fun k => !(laggy max_distance_threshold mo (L.off k)))
        { lo := kept.head?.getD L.lo
          hi := kept.getLast?.getD L.hi
          off := fun k =>
            if laggy max_distance_threshold mo (L.off k) then none else L.off k }

/-- Apply the configured reduction strategy to a freshly computed layer. -/
def reduceMaybe (cfg : wavefront_reduction_t) (L : WFLayer) : WFLayer :=
  match cfg.reduction_strategy with
  | .wavefront_reduction_none => L
  | .wavefront_reduction_adaptive =>
      wavefront_reduce cfg.min_wavefront_length cfg.max_distance_threshold L

/-- Modelled from the spec: the initial M-wavefront at score 0 — only
diagonal 0, extended greedily from the origin. -/
def baseLayer (p t : List Char) : WFLayer :=
  ⟨0, 0, fun k => if k = 0 then some (extendo p t 0 0) else none⟩

/-- Predecessor lookup in the score-indexed history: penalty `pq` steps
back (the head of the history is the most recent layer). -/
def predLayer (pq : ℕ) (hist : List WFLayer) : WFLayer :=
  hist.getD (pq - 1) nullLayer

/-- Modelled from the spec: compute the next score layer from the layer
history (spec section 4.1, gap-lineal recurrence with mismatch penalty
`x` and indel penalty `b`): each diagonal takes the furthest of the
three penalty transitions and is then extended greedily. -/
def wfNext (pen : LinealPen) (p t : List Char) (hist : List WFLayer) : WFLayer :=
  let lx := predLayer pen.x hist
  let lb := predLayer pen.b hist
  { lo := min lx.lo lb.lo - 1
    hi := max lx.hi lb.hi + 1
    off := fun k => (candsOf p t lx lb k).map (extendo p t k) }

/-- Modelled from the spec: the score-by-score propagation engine — the
list of all M-wavefront layers from score `s` down to score 0 (most
recent first).  Reduction is applied to each layer as it is produced. -/
def mwfL (pen : LinealPen) (cfg : wavefront_reduction_t) (p t : List Char) :
    ℕ → List WFLayer
  | 0 => [reduceMaybe cfg (baseLayer p t)]
  | s + 1 =>
      reduceMaybe cfg (wfNext pen p t (mwfL pen cfg p t s)) :: mwfL pen cfg p t s

/-- The M-wavefront at score `s`. -/
def mwfS (pen : LinealPen) (cfg : wavefront_reduction_t) (p t : List Char)
    (s : ℕ) : WFLayer :=
  (mwfL pen cfg p t s).getD 0 nullLayer

/-- The predecessor layer read by the mismatch transition when computing
score `s + 1`. -/
def lxAt (pen : LinealPen) (cfg : wavefront_reduction_t) (p t : List Char)
    (s : ℕ) : WFLayer :=
  predLayer pen.x (mwfL pen cfg p t s)

/-- The predecessor layer read by the two gap transitions when computing
score `s + 1`. -/
def lbAt (pen : LinealPen) (cfg : wavefront_reduction_t) (p t : List Char)
    (s : ℕ) : WFLayer :=
  predLayer pen.b (mwfL pen cfg p t s)

/-- Best recurrence candidate feeding diagonal `k` of score layer
`s + 1`. -/
def candsAt (pen : LinealPen) (cfg : wavefront_reduction_t) (p t : List Char)
    (s : ℕ) (k : ℤ) : Option ℕ :=
  candsOf p t (lxAt pen cfg p t s) (lbAt pen cfg p t s) k

/-- Validity invariant for stored offsets: inside the grid and
extension-closed (spec section 3, "furthest reaching" consistency). -/
def ValidLayer (p t : List Char) (L : WFLayer) : Prop :=
  ∀ k o, L.off k = some o →
    o ≤ p.length ∧ 0 ≤ (o : ℤ) + k ∧ (o : ℤ) + k ≤ (t.length : ℤ) ∧
      matchAt p t k o = false

/-- Modelled from the spec: backtrace reconstruction (spec section 4.4)
— walk backward from a cell, decoding one score-decreasing move per
step; the deterministic tie-break prefers the mismatch transition, then
insertion, then deletion.  `fuel` bounds the recursion (every step
decreases the score by at least one, so `fuel = s` suffices). -/
def btAux (pen : LinealPen) (cfg : wavefront_reduction_t) (p t : List Char) :
    ℕ → ℕ → ℤ → ℕ → List Op
  | 0, _, _, o => List.replicate o Op.eq
  | fuel + 1, s, k, o =>
      match s with
      | 0 => List.replicate o Op.eq
      | s0 + 1 =>
          match candsAt pen cfg p t s0 k with
          | none => []
          | some v =>
              if candMisF p t (lxAt pen cfg p t s0) k = some v then
                btAux pen cfg p t fuel (s0 + 1 - pen.x) k (v - 1)
                  ++ Op.sub :: List.replicate (o - v) Op.eq
              else if candInsF t (lbAt pen cfg p t s0) k = some v then
                btAux pen cfg p t fuel (s0 + 1 - pen.b) (k - 1) v
                  ++ Op.ins :: List.replicate (o - v) Op.eq
              else
                btAux pen cfg p t fuel (s0 + 1 - pen.b) (k + 1) (v - 1)
                  ++ Op.del :: List.replicate (o - v) Op.eq

/-- CIGAR reconstruction from a stored cell (spec section 4.4). -/
def backtraceF (pen : LinealPen) (cfg : wavefront_reduction_t)
    (p t : List Char) (s : ℕ) (k : ℤ) (o : ℕ) : List Op :=
  btAux pen cfg p t s s k o

/-- Alignment scope, from `wavefront_aligner.h`. -/
inductive alignment_scope_t : Type
  | alignment_scope_score
  | alignment_scope_alignment
deriving DecidableEq, Repr

/-- Alignment outcome status (spec sections 4.5 and 7): distinct abort
statuses for the score and memory limits. -/
inductive wf_align_status : Type
  | wf_align_idle
  | wf_align_successful
  | wf_align_max_score_reached
  | wf_align_max_memory_reached
deriving DecidableEq, Repr

/-- Aligner attributes, from `wavefront_aligner.h`
(`wavefront_aligner_attr_t`); the distance metric is carried by the
gap-lineal penalty set itself, and the optional external allocator is
modelled as an optional handle. -/
structure wavefront_aligner_attr_t : Type where
  lineal_penalties : LinealPen
  alignment_scope : alignment_scope_t
  reduction : wavefront_reduction_t
  low_memory : Bool
  mm_allocator : Option ℕ
  max_alignment_score : ℕ
  max_memory_used : ℕ

/-- The aligner, from `wavefront_aligner.h` (`wavefront_aligner_t`);
wavefront storage lives in the score-indexed engine (`mwfL`), and the
CIGAR/score/status fields hold the outcome of the last alignment. -/
structure wavefront_aligner_t : Type where
  pattern_length : ℕ
  text_length : ℕ
  alignment_scope : alignment_scope_t
  penalties : LinealPen
  reduction : wavefront_reduction_t
  memory_modular : Bool
  bt_piggyback : Bool
  max_score_scope : ℕ
  align_status : wf_align_status
  score : Option ℕ
  cigar : Option (List Op)
  mm_allocator_own : Bool
  mm_allocator : ℕ
  max_alignment_score : ℕ
  limit_probe_interval : ℕ
  max_memory_used : ℕ
  max_resident_memory : ℕ

/-- Modelled from the spec: `wavefront_aligner_new` — builds the aligner
from its attributes; the low-memory flag selects both modular wavefronts
and piggyback backtrace (header comment on `low_memory`), the score
scope is derived from the penalty set (spec section 3), and the
allocator is owned exactly when none was supplied. -/
def wavefront_aligner_new (pattern_length text_length : ℕ)
    (attributes : wavefront_aligner_attr_t) : wavefront_aligner_t :=
  { pattern_length := pattern_length
    text_length := text_length
    alignment_scope := attributes.alignment_scope
    penalties := attributes.lineal_penalties
    reduction := attributes.reduction
    memory_modular := attributes.low_memory
    bt_piggyback := attributes.low_memory
    max_score_scope := max attributes.lineal_penalties.x attributes.lineal_penalties.b
    align_status := wf_align_status.wf_align_idle
    score := none
    cigar := none
    mm_allocator_own := attributes.mm_allocator.isNone
    mm_allocator := attributes.mm_allocator.getD 0
    max_alignment_score := attributes.max_alignment_score
    limit_probe_interval := 1
    max_memory_used := attributes.max_memory_used
    max_resident_memory := attributes.max_memory_used }

/-- Modelled from the spec: `wavefront_aligner_clear` — reset the
outcome fields for reuse with identical lengths (spec section 6). -/
def wavefront_aligner_clear (a : wavefront_aligner_t) : wavefront_aligner_t :=
  { a with
    align_status := wf_align_status.wf_align_idle
    score := none
    cigar := none }

/-- Resources released by a full teardown. -/
structure wf_delete_effect : Type where
  wavefronts_freed : Bool
  slab_freed : Bool
  cigar_freed : Bool
  allocator_freed : Bool
deriving DecidableEq, Repr

/-- Modelled from the spec: `wavefront_aligner_delete` — full teardown;
the memory allocator is released exactly when the aligner owns it (spec
section 6). -/
def wavefront_aligner_delete (a : wavefront_aligner_t) : wf_delete_effect :=
  ⟨true, true, true, a.mm_allocator_own⟩

/-- Modelled from the spec: termination test of the propagation loop —
the M-wavefront at score `s` holds offset `pattern_length` on diagonal
`text_length − pattern_length` (spec section 4.1). -/
def reachedB (pen : LinealPen) (cfg : wavefront_reduction_t)
    (p t : List Char) (s : ℕ) : Bool :=
  (mwfS pen cfg p t s).off ((t.length : ℤ) - (p.length : ℤ)) == some p.length

/-- Fuel bound for the score loop: deleting the whole pattern and
inserting the whole text always aligns, so the optimal score is below
this bound. -/
def scoreFuel (pen : LinealPen) (p t : List Char) : ℕ :=
  pen.b * (p.length + t.length) + 1

/-- Modelled from the spec: resident wavefront memory after computing
score layer `s` — retained layers times the maximal band width; in
modular mode only `max_score_scope + 1` layers stay resident (spec
section 4.3). -/
def memUsed (a : wavefront_aligner_t) (s : ℕ) : ℕ :=
  (if a.memory_modular then min (s + 1) (a.max_score_scope + 1) else s + 1)
    * (a.pattern_length + a.text_length + 1)

/-- Outcome of one alignment invocation. -/
structure wf_align_result : Type where
  status : wf_align_status
  score : Option ℕ
  cigar : Option (List Op)
deriving DecidableEq, Repr

/-- Modelled from the spec: the score-by-score orchestrator loop (spec
sections 4.1 and 4.5) — at each probe tick the current score is checked
against `max_alignment_score` and the resident memory against
`max_memory_used`, aborting with the corresponding distinct status and
no result; otherwise the layer is tested for termination, and on
success the score and (under full-alignment scope) the CIGAR are
produced. -/
def alignLoop (a : wavefront_aligner_t) (p t : List Char) :
    ℕ → ℕ → wf_align_result
  | 0, _ => ⟨wf_align_status.wf_align_max_score_reached, none, none⟩
  | fuel + 1, s =>
      if s % a.limit_probe_interval = 0 ∧ a.max_alignment_score < s then
        ⟨wf_align_status.wf_align_max_score_reached, none, none⟩
      else if s % a.limit_probe_interval = 0 ∧ a.max_memory_used < memUsed a s then
        ⟨wf_align_status.wf_align_max_memory_reached, none, none⟩
      else if reachedB a.penalties a.reduction p t s then
        ⟨wf_align_status.wf_align_successful, some s,
          if a.alignment_scope = alignment_scope_t.alignment_scope_alignment then
            some (backtraceF a.penalties a.reduction p t s
              ((t.length : ℤ) - (p.length : ℤ)) p.length)
          else none⟩
      else alignLoop a p t fuel (s + 1)

/-- Modelled from the spec: one alignment invocation — run the score
loop from score 0 with enough fuel to cover the worst-case score. -/
def wavefront_align (a : wavefront_aligner_t) (p t : List Char) :
    wf_align_result :=
  alignLoop a p t (scoreFuel a.penalties p t) 0

/-- Modelled from the spec: alignment invocation that stores its outcome
in the aligner's outcome fields (score, CIGAR, status). -/
def wavefront_align_run (a : wavefront_aligner_t) (p t : List Char) :
    wavefront_aligner_t :=
  { a with
    align_status := (wavefront_align a p t).status
    score := (wavefront_align a p t).score
    cigar := (wavefront_align a p t).cigar }

/-- Modelled from the spec: the set of score layers simultaneously live
in the slab in modular memory mode, after processing score `s` — each
newly computed layer is inserted and layers older than the retention
window `max_score_scope` are released (spec section 4.3). -/
def slab_live (scope : ℕ) : ℕ → Finset ℕ
  | 0 => {0}
  | s + 1 => insert (s + 1) ((slab_live scope s).filter (fun x => s + 1 ≤ x + scope))

/-- Recomputation of an already-computed score layer from the same
predecessor wavefronts (spec section 8, idempotence of `compute`). -/
def recomputeLayer (pen : LinealPen) (cfg : wavefront_reduction_t)
    (p t : List Char) (s : ℕ) : WFLayer :=
  reduceMaybe cfg (wfNext pen p t (mwfL pen cfg p t (s - 1)))

/-- Example penalty configuration and aligners used by the concrete
witnesses below. -/
def exCfgNone : wavefront_reduction_t :=
  ⟨wavefront_reduction_type.wavefront_reduction_none, 0, 0⟩

def exCfgAdaptive : wavefront_reduction_t :=
  ⟨wavefront_reduction_type.wavefront_reduction_adaptive, 1, 50⟩

def exAlignerFull : wavefront_aligner_t :=
  wavefront_aligner_new 1 1
    ⟨editPen, alignment_scope_t.alignment_scope_alignment, exCfgNone,
      false, none, 100, 1000⟩

def exAlignerScore : wavefront_aligner_t :=
  wavefront_aligner_new 1 1
    ⟨editPen, alignment_scope_t.alignment_scope_score, exCfgNone,
      false, none, 100, 1000⟩

/-- An example aligner running in the low-memory (modular) strategy. -/
def exAlignerModular : wavefront_aligner_t :=
  wavefront_aligner_new 1 1
    ⟨editPen, alignment_scope_t.alignment_scope_score, exCfgNone,
      true, none, 100, 1000⟩

/-- An example layer for the reduction witness: three diagonals, maximum
offset 5, one diagonal lagging by more than the threshold 2. -/
def exLayer : WFLayer :=
  ⟨-1, 1, fun k => if k = 0 then some 5 else if k = 1 then some 0
    else if k = -1 then some 4 else none⟩

/-- An example aligner whose score limit is low enough to trip. -/
def exAlignerTight : wavefront_aligner_t :=
  wavefront_aligner_new 1 1
    ⟨editPen, alignment_scope_t.alignment_scope_alignment, exCfgNone,
      false, none, 0, 1000⟩

/-- An example aligner running with adaptive reduction and an ample
distance threshold. -/
def exAlignerAdaptive : wavefront_aligner_t :=
  wavefront_aligner_new 1 1
    ⟨editPen, alignment_scope_t.alignment_scope_alignment, exCfgAdaptive,
      false, none, 100, 1000⟩

/-! ### Theorems -/

theorem editDP_nil_left (pen : LinealPen) (t : List Char) :
    editDP pen [] t = pen.b * t.length := rfl

theorem editDP_nil_right (pen : LinealPen) (p : List Char) :
    editDP pen p [] = pen.b * p.length := by
  induction p with
  | nil => rfl
  | cons a p ih =>
      show pen.b + editDP pen p [] = pen.b * (p.length + 1)
      rw [ih]; ring

theorem editDP_cons_cons (pen : LinealPen) (a c : Char) (p t : List Char) :
    editDP pen (a :: p) (c :: t) =
      min ((if a = c then 0 else pen.x) + editDP pen p t)
        (min (pen.b + editDP pen (a :: p) t) (pen.b + editDP pen p (c :: t))) := rfl

theorem opsCost_cons (pen : LinealPen) (op : Op) (ops : List Op) :
    opsCost pen (op :: ops) = opCost pen op + opsCost pen ops := by
  simp [opsCost]

theorem opsCost_append (pen : LinealPen) (l1 l2 : List Op) :
    opsCost pen (l1 ++ l2) = opsCost pen l1 + opsCost pen l2 := by
  simp [opsCost]

/-- One substitution/match step of the DP bound. -/
theorem editDP_le_diag (pen : LinealPen) (a c : Char) (p t : List Char) :
    editDP pen (a :: p) (c :: t) ≤ (if a = c then 0 else pen.x) + editDP pen p t := by
  rw [editDP_cons_cons]; exact min_le_left _ _

/-- One insertion step of the DP bound. -/
theorem editDP_le_ins (pen : LinealPen) (c : Char) (p t : List Char) :
    editDP pen p (c :: t) ≤ pen.b + editDP pen p t := by
  cases p with
  | nil => simp [editDP_nil_left, Nat.mul_succ]; omega
  | cons a p =>
      rw [editDP_cons_cons]
      exact le_trans (min_le_right _ _) (min_le_left _ _)

/-- One deletion step of the DP bound. -/
theorem editDP_le_del (pen : LinealPen) (a : Char) (p t : List Char) :
    editDP pen (a :: p) t ≤ pen.b + editDP pen p t := by
  cases t with
  | nil => simp [editDP_nil_right, Nat.mul_succ]; omega
  | cons c t =>
      rw [editDP_cons_cons]
      exact le_trans (min_le_right _ _) (min_le_right _ _)

/-- Lower bound: the reference DP score is at most the cost of any
operation list that replays to the given sequences. -/
theorem editDP_le_opsCost (pen : LinealPen) :
    ∀ (ops : List Op) (p t : List Char),
      alignsB ops p t = true → editDP pen p t ≤ opsCost pen ops := by
  intro ops
  induction ops with
  | nil =>
      intro p t h
      cases p with
      | nil =>
          cases t with
          | nil => simp [editDP_nil_left, opsCost]
          | cons c t => simp [alignsB] at h
      | cons a p => cases t <;> simp [alignsB] at h
  | cons op ops ih =>
      intro p t h
      cases op with
      | eq =>
          cases p with
          | nil => cases t <;> simp [alignsB] at h
          | cons a p =>
              cases t with
              | nil => simp [alignsB] at h
              | cons c t =>
                  simp only [alignsB, Bool.and_eq_true, beq_iff_eq] at h
                  have h1 := editDP_le_diag pen a c p t
                  rw [if_pos h.1] at h1
                  have h2 := ih p t h.2
                  rw [opsCost_cons]
                  simp only [opCost]
                  omega
      | sub =>
          cases p with
          | nil => cases t <;> simp [alignsB] at h
          | cons a p =>
              cases t with
              | nil => simp [alignsB] at h
              | cons c t =>
                  simp only [alignsB, Bool.and_eq_true, bne_iff_ne] at h
                  have h1 := editDP_le_diag pen a c p t
                  rw [if_neg h.1] at h1
                  have h2 := ih p t h.2
                  rw [opsCost_cons]
                  simp only [opCost]
                  omega
      | ins =>
          cases t with
          | nil => cases p <;> simp [alignsB] at h
          | cons c t =>
              have hrest : alignsB ops p t = true := by
                cases p <;> simpa [alignsB] using h
              have h1 := editDP_le_ins pen c p t
              have h2 := ih p t hrest
              rw [opsCost_cons]
              simp only [opCost]
              omega
      | del =>
          cases p with
          | nil => cases t <;> simp [alignsB] at h
          | cons a p =>
              have hrest : alignsB ops p t = true := by
                cases t <;> simpa [alignsB] using h
              have h1 := editDP_le_del pen a p t
              have h2 := ih p t hrest
              rw [opsCost_cons]
              simp only [opCost]
              omega

theorem opsCost_replicate (pen : LinealPen) (r : ℕ) (op : Op) :
    opsCost pen (List.replicate r op) = r * opCost pen op := by
  simp [opsCost, List.map_replicate, List.sum_replicate, Nat.smul_one_eq_cast]

theorem alignsB_replicate_ins (t : List Char) :
    alignsB (List.replicate t.length Op.ins) [] t = true := by
  induction t with
  | nil => rfl
  | cons c t ih => simpa [alignsB, List.replicate_succ] using ih

theorem alignsB_replicate_del (p t : List Char)
    (h : alignsB (List.replicate t.length Op.ins) [] t = true) :
    alignsB (List.replicate p.length Op.del ++ List.replicate t.length Op.ins) p t
      = true := by
  induction p with
  | nil => simpa using h
  | cons a p ih => simpa [alignsB, List.replicate_succ] using ih

/-- Gross upper bound on the reference DP score: delete the whole
pattern, then insert the whole text. -/
theorem editDP_le_total (pen : LinealPen) (p t : List Char) :
    editDP pen p t ≤ pen.b * (p.length + t.length) := by
  have h := editDP_le_opsCost pen
    (List.replicate p.length Op.del ++ List.replicate t.length Op.ins) p t
    (alignsB_replicate_del p t (alignsB_replicate_ins t))
  rw [opsCost_append, opsCost_replicate, opsCost_replicate] at h
  simp only [opCost] at h
  calc editDP pen p t ≤ p.length * pen.b + t.length * pen.b := h
    _ = pen.b * (p.length + t.length) := by ring

/-- Achievability: some operation list realizes the reference DP score. -/
theorem exists_opsCost_eq_editDP (pen : LinealPen) :
    ∀ (p t : List Char),
      ∃ ops, alignsB ops p t = true ∧ opsCost pen ops = editDP pen p t := by
  intro p
  induction p with
  | nil =>
      intro t
      refine ⟨List.replicate t.length Op.ins, alignsB_replicate_ins t, ?_⟩
      rw [opsCost_replicate, editDP_nil_left]
      simp [opCost, Nat.mul_comm]
  | cons a p ihp =>
      intro t
      induction t with
      | nil =>
          refine ⟨List.replicate (p.length + 1) Op.del, ?_, ?_⟩
          · have := alignsB_replicate_del (a :: p) ([] : List Char) (by rfl)
            simpa using this
          · rw [opsCost_replicate, editDP_nil_right]; simp [opCost]; ring
      | cons c t iht =>
          obtain ⟨ops1, ha1, hc1⟩ := ihp t
          obtain ⟨ops2, ha2, hc2⟩ := iht
          obtain ⟨ops3, ha3, hc3⟩ := ihp (c :: t)
          rcases Nat.lt_or_ge ((if a = c then 0 else pen.x) + editDP pen p t)
              (min (pen.b + editDP pen (a :: p) t) (pen.b + editDP pen p (c :: t)))
            with hlt | hge
          · refine ⟨(if a = c then Op.eq else Op.sub) :: ops1, ?_, ?_⟩
            · by_cases hac : a = c
              · simpa [hac, alignsB] using ha1
              · simp only [if_neg hac, alignsB, Bool.and_eq_true, bne_iff_ne]
                exact ⟨hac, ha1⟩
            · rw [opsCost_cons, editDP_cons_cons, min_eq_left hlt.le, hc1]
              by_cases hac : a = c <;> simp [hac, opCost]
          · rcases Nat.le_total (pen.b + editDP pen (a :: p) t)
              (pen.b + editDP pen p (c :: t)) with h23 | h23
            · refine ⟨Op.ins :: ops2, by simpa [alignsB] using ha2, ?_⟩
              rw [opsCost_cons, editDP_cons_cons, min_eq_right hge,
                min_eq_left h23, hc2]
              simp [opCost]
            · refine ⟨Op.del :: ops3, by simpa [alignsB] using ha3, ?_⟩
              rw [opsCost_cons, editDP_cons_cons, min_eq_right hge,
                min_eq_right h23, hc3]
              simp [opCost]

/-- Script surgery: any replay of `a :: p` against `t` yields a replay of
`p` against `t` whose cost grows by at most one indel penalty. -/
theorem alignsB_drop_pat (pen : LinealPen) (a : Char) (p : List Char) :
    ∀ (ops : List Op) (t : List Char), alignsB ops (a :: p) t = true →
      ∃ ops2, alignsB ops2 p t = true ∧
        opsCost pen ops2 ≤ opsCost pen ops + pen.b := by
  intro ops
  induction ops with
  | nil => intro t h; cases t <;> simp [alignsB] at h
  | cons op rest ih =>
      intro t h
      cases op with
      | eq =>
          cases t with
          | nil => simp [alignsB] at h
          | cons c t =>
              simp only [alignsB, Bool.and_eq_true, beq_iff_eq] at h
              refine ⟨Op.ins :: rest, by simpa [alignsB] using h.2, ?_⟩
              rw [opsCost_cons, opsCost_cons]
              simp [opCost]
              omega
      | sub =>
          cases t with
          | nil => simp [alignsB] at h
          | cons c t =>
              simp only [alignsB, Bool.and_eq_true, bne_iff_ne] at h
              refine ⟨Op.ins :: rest, by simpa [alignsB] using h.2, ?_⟩
              rw [opsCost_cons, opsCost_cons]
              simp [opCost]
              omega
      | ins =>
          cases t with
          | nil => simp [alignsB] at h
          | cons c t =>
              have hrest : alignsB rest (a :: p) t = true := by
                simpa [alignsB] using h
              obtain ⟨ops2, ha2, hc2⟩ := ih t hrest
              refine ⟨Op.ins :: ops2, by simpa [alignsB] using ha2, ?_⟩
              rw [opsCost_cons, opsCost_cons]
              simp only [opCost]
              omega
      | del =>
          have hrest : alignsB rest p t = true := by
            cases t <;> simpa [alignsB] using h
          refine ⟨rest, hrest, ?_⟩
          rw [opsCost_cons]
          simp only [opCost]
          omega

/-- Script surgery on the text side. -/
theorem alignsB_drop_text (pen : LinealPen) (c : Char) (t : List Char) :
    ∀ (ops : List Op) (p : List Char), alignsB ops p (c :: t) = true →
      ∃ ops2, alignsB ops2 p t = true ∧
        opsCost pen ops2 ≤ opsCost pen ops + pen.b := by
  intro ops
  induction ops with
  | nil => intro p h; cases p <;> simp [alignsB] at h
  | cons op rest ih =>
      intro p h
      cases op with
      | eq =>
          cases p with
          | nil => simp [alignsB] at h
          | cons a p =>
              simp only [alignsB, Bool.and_eq_true, beq_iff_eq] at h
              refine ⟨Op.del :: rest, by simpa [alignsB] using h.2, ?_⟩
              rw [opsCost_cons, opsCost_cons]
              simp [opCost]
              omega
      | sub =>
          cases p with
          | nil => simp [alignsB] at h
          | cons a p =>
              simp only [alignsB, Bool.and_eq_true, bne_iff_ne] at h
              refine ⟨Op.del :: rest, by simpa [alignsB] using h.2, ?_⟩
              rw [opsCost_cons, opsCost_cons]
              simp [opCost]
              omega
      | ins =>
          have hrest : alignsB rest p t = true := by
            cases p <;> simpa [alignsB] using h
          refine ⟨rest, hrest, ?_⟩
          rw [opsCost_cons]
          simp only [opCost]
          omega
      | del =>
          cases p with
          | nil => simp [alignsB] at h
          | cons a p =>
              have hrest : alignsB rest p (c :: t) = true := by
                simpa [alignsB] using h
              obtain ⟨ops2, ha2, hc2⟩ := ih p hrest
              refine ⟨Op.del :: ops2, by simpa [alignsB] using ha2, ?_⟩
              rw [opsCost_cons, opsCost_cons]
              simp only [opCost]
              omega

/-- Removing the pattern head changes the DP score by at most one indel. -/
theorem editDP_drop_pat_le (pen : LinealPen) (a : Char) (p t : List Char) :
    editDP pen p t ≤ editDP pen (a :: p) t + pen.b := by
  obtain ⟨ops, ha, hc⟩ := exists_opsCost_eq_editDP pen (a :: p) t
  obtain ⟨ops2, ha2, hc2⟩ := alignsB_drop_pat pen a p ops t ha
  have := editDP_le_opsCost pen ops2 p t ha2
  omega

/-- Removing the text head changes the DP score by at most one indel. -/
theorem editDP_drop_text_le (pen : LinealPen) (c : Char) (p t : List Char) :
    editDP pen p t ≤ editDP pen p (c :: t) + pen.b := by
  obtain ⟨ops, ha, hc⟩ := exists_opsCost_eq_editDP pen p (c :: t)
  obtain ⟨ops2, ha2, hc2⟩ := alignsB_drop_text pen c t ops p ha
  have := editDP_le_opsCost pen ops2 p t ha2
  omega

/-- The DP score never increases when moving one step forward along a
diagonal (dropping the heads of both sequences). -/
theorem editDP_diag_mono (pen : LinealPen) (a c : Char) (p t : List Char) :
    editDP pen p t ≤ editDP pen (a :: p) (c :: t) := by
  rw [editDP_cons_cons]
  have h1 : editDP pen p t ≤ (if a = c then 0 else pen.x) + editDP pen p t := by
    omega
  have h2 := editDP_drop_pat_le pen a p t
  have h3 := editDP_drop_text_le pen c p t
  omega

theorem extAux_ge (p t : List Char) (k : ℤ) :
    ∀ (fuel o : ℕ), o ≤ extAux p t k fuel o := by
  intro fuel
  induction fuel with
  | zero => intro o; exact le_refl o
  | succ fuel ih =>
      intro o
      show o ≤ if matchAt p t k o then extAux p t k fuel (o + 1) else o
      by_cases h : matchAt p t k o = true
      · rw [if_pos h]; exact le_trans (Nat.le_succ o) (ih (o + 1))
      · rw [if_neg h]

theorem extendo_ge (p t : List Char) (k : ℤ) (o : ℕ) :
    o ≤ extendo p t k o := extAux_ge p t k _ o

theorem extAux_stop (p t : List Char) (k : ℤ) :
    ∀ (fuel o : ℕ), p.length - o ≤ fuel →
      matchAt p t k (extAux p t k fuel o) = false := by
  intro fuel
  induction fuel with
  | zero =>
      intro o h
      show matchAt p t k o = false
      have : p.length ≤ o := by omega
      simp [matchAt, Nat.not_lt.mpr this]
  | succ fuel ih =>
      intro o h
      show matchAt p t k (if matchAt p t k o then extAux p t k fuel (o + 1) else o)
        = false
      by_cases hm : matchAt p t k o = true
      · rw [if_pos hm]
        have ho : o < p.length := by
          by_contra hc
          simp [matchAt, Nat.not_lt.mp hc] at hm
          omega
        exact ih (o + 1) (by omega)
      · rw [if_neg hm]; exact Bool.eq_false_iff.mpr hm

theorem extendo_stop (p t : List Char) (k : ℤ) (o : ℕ) :
    matchAt p t k (extendo p t k o) = false :=
  extAux_stop p t k _ o (le_refl _)

theorem extAux_matches (p t : List Char) (k : ℤ) :
    ∀ (fuel o i : ℕ), o ≤ i → i < extAux p t k fuel o →
      matchAt p t k i = true := by
  intro fuel
  induction fuel with
  | zero => intro o i h1 h2; exact absurd (lt_of_le_of_lt h1 h2) (lt_irrefl o)
  | succ fuel ih =>
      intro o i h1 h2
      by_cases hm : matchAt p t k o = true
      · rw [show extAux p t k (fuel + 1) o
              = if matchAt p t k o then extAux p t k fuel (o + 1) else o from rfl,
            if_pos hm] at h2
        rcases Nat.eq_or_lt_of_le h1 with rfl | hlt
        · exact hm
        · exact ih (o + 1) i hlt h2
      · rw [show extAux p t k (fuel + 1) o
              = if matchAt p t k o then extAux p t k fuel (o + 1) else o from rfl,
            if_neg hm] at h2
        exact absurd (lt_of_le_of_lt h1 h2) (lt_irrefl o)

theorem extendo_matches (p t : List Char) (k : ℤ) (o i : ℕ)
    (h1 : o ≤ i) (h2 : i < extendo p t k o) : matchAt p t k i = true :=
  extAux_matches p t k _ o i h1 h2

/-- The extension result is the least extension-closed offset at or
beyond the start. -/
theorem extendo_le_of_stop (p t : List Char) (k : ℤ) (o e : ℕ)
    (h1 : o ≤ e) (h2 : matchAt p t k e = false) : extendo p t k o ≤ e := by
  by_contra hc
  have := extendo_matches p t k o e h1 (Nat.lt_of_not_le hc)
  rw [h2] at this
  exact Bool.false_ne_true this

theorem extendo_mono (p t : List Char) (k : ℤ) (o o2 : ℕ) (h : o ≤ o2) :
    extendo p t k o ≤ extendo p t k o2 :=
  extendo_le_of_stop p t k o (extendo p t k o2)
    (le_trans h (extendo_ge p t k o2)) (extendo_stop p t k o2)

theorem extendo_succ_of_match (p t : List Char) (k : ℤ) (o : ℕ)
    (h : matchAt p t k o = true) : o + 1 ≤ extendo p t k o := by
  have h1 := extendo_ge p t k o
  have h2 := extendo_stop p t k o
  rcases Nat.eq_or_lt_of_le h1 with he | hlt
  · rw [← he] at h2; rw [h] at h2; exact absurd h2 (by simp)
  · omega

theorem matchAt_bounds (p t : List Char) (k : ℤ) (o : ℕ)
    (h : matchAt p t k o = true) :
    o < p.length ∧ 0 ≤ (o : ℤ) + k ∧ (o : ℤ) + k < (t.length : ℤ) := by
  simp only [matchAt, Bool.and_eq_true, decide_eq_true_eq] at h
  exact ⟨h.1.1.1, h.1.1.2, h.1.2⟩

theorem matchAt_chars (p t : List Char) (k : ℤ) (o : ℕ)
    (h : matchAt p t k o = true) :
    p.getD o (Char.ofNat 0) = t.getD ((o : ℤ) + k).toNat (Char.ofNat 0) := by
  simp only [matchAt, Bool.and_eq_true, decide_eq_true_eq, beq_iff_eq] at h
  exact h.2

theorem matchAt_of_parts (p t : List Char) (k : ℤ) (o : ℕ)
    (h1 : o < p.length) (h2 : 0 ≤ (o : ℤ) + k) (h3 : (o : ℤ) + k < (t.length : ℤ))
    (h4 : p.getD o (Char.ofNat 0) = t.getD ((o : ℤ) + k).toNat (Char.ofNat 0)) :
    matchAt p t k o = true := by
  simp only [matchAt, Bool.and_eq_true, decide_eq_true_eq, beq_iff_eq]
  exact ⟨⟨⟨h1, h2⟩, h3⟩, h4⟩

theorem extAux_le_len (p t : List Char) (k : ℤ) :
    ∀ (fuel o : ℕ), o ≤ p.length → extAux p t k fuel o ≤ p.length := by
  intro fuel
  induction fuel with
  | zero => intro o h; exact h
  | succ fuel ih =>
      intro o h
      show (if matchAt p t k o then extAux p t k fuel (o + 1) else o) ≤ p.length
      by_cases hm : matchAt p t k o = true
      · rw [if_pos hm]
        exact ih (o + 1) (matchAt_bounds p t k o hm).1
      · rw [if_neg hm]; exact h

theorem extendo_le_len (p t : List Char) (k : ℤ) (o : ℕ) (h : o ≤ p.length) :
    extendo p t k o ≤ p.length := extAux_le_len p t k _ o h

theorem extendo_diag_le (p t : List Char) (k : ℤ) (o : ℕ)
    (h : (o : ℤ) + k ≤ (t.length : ℤ)) :
    ((extendo p t k o : ℤ)) + k ≤ (t.length : ℤ) := by
  rcases Nat.eq_or_lt_of_le (extendo_ge p t k o) with he | hlt
  · rw [← he]; exact h
  · have hm := extendo_matches p t k o (extendo p t k o - 1) (by omega) (by omega)
    have := (matchAt_bounds p t k _ hm).2.2
    have hpos : 1 ≤ extendo p t k o := by omega
    push_cast [Nat.cast_sub hpos] at this ⊢
    omega

theorem extendo_diag_nonneg (p t : List Char) (k : ℤ) (o : ℕ)
    (h : 0 ≤ (o : ℤ) + k) : 0 ≤ ((extendo p t k o : ℤ)) + k := by
  have := extendo_ge p t k o
  have : (o : ℤ) ≤ (extendo p t k o : ℤ) := by exact_mod_cast this
  omega

theorem omax_eq_some (a b : Option ℕ) (v : ℕ) (h : omax a b = some v) :
    a = some v ∨ b = some v := by
  match a, b with
  | none, b => exact Or.inr h
  | some o, none => exact Or.inl h
  | some o, some o2 =>
      have hv : max o o2 = v := by simpa [omax] using h
      rcases Nat.le_total o o2 with hle | hle
      · exact Or.inr (by rw [show max o o2 = o2 from max_eq_right hle] at hv; rw [hv])
      · exact Or.inl (by rw [show max o o2 = o from max_eq_left hle] at hv; rw [hv])

theorem omax_ge_left (a b : Option ℕ) (o : ℕ) (h : a = some o) :
    ∃ v, omax a b = some v ∧ o ≤ v := by
  subst h
  match b with
  | none => exact ⟨o, rfl, le_refl o⟩
  | some o2 => exact ⟨max o o2, rfl, le_max_left o o2⟩

theorem omax_ge_right (a b : Option ℕ) (o : ℕ) (h : b = some o) :
    ∃ v, omax a b = some v ∧ o ≤ v := by
  subst h
  match a with
  | none => exact ⟨o, rfl, le_refl o⟩
  | some o2 => exact ⟨max o2 o, rfl, le_max_right o2 o⟩

theorem mwfL_length (pen : LinealPen) (cfg : wavefront_reduction_t)
    (p t : List Char) : ∀ s, (mwfL pen cfg p t s).length = s + 1 := by
  intro s
  induction s with
  | zero => rfl
  | succ s ih => simp [mwfL, ih]

theorem mwfS_zero (pen : LinealPen) (cfg : wavefront_reduction_t)
    (p t : List Char) : mwfS pen cfg p t 0 = reduceMaybe cfg (baseLayer p t) := rfl

theorem mwfS_succ (pen : LinealPen) (cfg : wavefront_reduction_t)
    (p t : List Char) (s : ℕ) :
    mwfS pen cfg p t (s + 1)
      = reduceMaybe cfg (wfNext pen p t (mwfL pen cfg p t s)) := rfl

theorem mwfL_getD (pen : LinealPen) (cfg : wavefront_reduction_t)
    (p t : List Char) : ∀ s i, (mwfL pen cfg p t s).getD i nullLayer
      = if i ≤ s then mwfS pen cfg p t (s - i) else nullLayer := by
  intro s
  induction s with
  | zero =>
      intro i
      cases i with
      | zero => rfl
      | succ i =>
          rw [if_neg (by omega)]
          apply List.getD_eq_default
          rw [mwfL_length]; omega
  | succ s ih =>
      intro i
      cases i with
      | zero => rw [if_pos (by omega)]; rfl
      | succ i =>
          show (mwfL pen cfg p t s).getD i nullLayer = _
          rw [ih i]
          by_cases h : i ≤ s
          · rw [if_pos h, if_pos (by omega)]
            congr 1
            omega
          · rw [if_neg h, if_neg (by omega)]

theorem predLayer_mwfL (pen : LinealPen) (cfg : wavefront_reduction_t)
    (p t : List Char) (s pq : ℕ) (hpq : 1 ≤ pq) :
    predLayer pq (mwfL pen cfg p t s)
      = if pq ≤ s + 1 then mwfS pen cfg p t (s + 1 - pq) else nullLayer := by
  show (mwfL pen cfg p t s).getD (pq - 1) nullLayer = _
  rw [mwfL_getD]
  by_cases h : pq - 1 ≤ s
  · rw [if_pos h, if_pos (by omega)]
    congr 1
    omega
  · rw [if_neg h, if_neg (by omega)]

theorem wavefront_reduce_off_some (ml thr : ℕ) (L : WFLayer) (k : ℤ) (o : ℕ)
    (h : (wavefront_reduce ml thr L).off k = some o) : L.off k = some o := by
  unfold wavefront_reduce at h
  by_cases hspan : L.hi + 1 - L.lo ≤ (ml : ℤ)
  · rwa [if_pos hspan] at h
  · rw [if_neg hspan] at h
    cases hmo : maxOffL L with
    | none => rwa [hmo] at h
    | some mo =>
        rw [hmo] at h
        simp only at h
        by_cases hl : laggy thr mo (L.off k) = true
        · rw [if_pos hl] at h; exact absurd h (by simp)
        · rwa [if_neg hl] at h

theorem reduceMaybe_off_some (cfg : wavefront_reduction_t) (L : WFLayer)
    (k : ℤ) (o : ℕ) (h : (reduceMaybe cfg L).off k = some o) :
    L.off k = some o := by
  unfold reduceMaybe at h
  cases hs : cfg.reduction_strategy with
  | wavefront_reduction_none => rw [hs] at h; exact h
  | wavefront_reduction_adaptive =>
      rw [hs] at h; exact wavefront_reduce_off_some _ _ L k o h

theorem candMisF_some (p t : List Char) (lx : WFLayer) (k : ℤ) (v : ℕ)
    (h : candMisF p t lx k = some v) :
    ∃ o, lx.off k = some o ∧ v = o + 1 ∧ o < p.length ∧
      (o : ℤ) + k < (t.length : ℤ) := by
  unfold candMisF at h
  cases ho : lx.off k with
  | none => rw [ho] at h; exact absurd h (by simp)
  | some o =>
      rw [ho, Option.some_bind] at h
      by_cases hc : o < p.length ∧ (o : ℤ) + k < (t.length : ℤ)
      · rw [if_pos hc] at h
        exact ⟨o, rfl, (Option.some_inj.mp h).symm, hc.1, hc.2⟩
      · rw [if_neg hc] at h; exact absurd h (by simp)

theorem candInsF_some (t : List Char) (lb : WFLayer) (k : ℤ) (v : ℕ)
    (h : candInsF t lb k = some v) :
    lb.off (k - 1) = some v ∧ (v : ℤ) + k ≤ (t.length : ℤ) := by
  unfold candInsF at h
  cases ho : lb.off (k - 1) with
  | none => rw [ho] at h; exact absurd h (by simp)
  | some o =>
      rw [ho, Option.some_bind] at h
      by_cases hc : (o : ℤ) + k ≤ (t.length : ℤ)
      · rw [if_pos hc] at h
        obtain rfl : o = v := Option.some_inj.mp h
        exact ⟨rfl, hc⟩
      · rw [if_neg hc] at h; exact absurd h (by simp)

theorem candDelF_some (p : List Char) (lb : WFLayer) (k : ℤ) (v : ℕ)
    (h : candDelF p lb k = some v) :
    ∃ o, lb.off (k + 1) = some o ∧ v = o + 1 ∧ o < p.length := by
  unfold candDelF at h
  cases ho : lb.off (k + 1) with
  | none => rw [ho] at h; exact absurd h (by simp)
  | some o =>
      rw [ho, Option.some_bind] at h
      by_cases hc : o < p.length
      · rw [if_pos hc] at h
        exact ⟨o, rfl, (Option.some_inj.mp h).symm, hc⟩
      · rw [if_neg hc] at h; exact absurd h (by simp)

theorem candsOf_cases (p t : List Char) (lx lb : WFLayer) (k : ℤ) (v : ℕ)
    (h : candsOf p t lx lb k = some v) :
    candMisF p t lx k = some v ∨ candInsF t lb k = some v ∨
      candDelF p lb k = some v := by
  rcases omax_eq_some _ _ _ h with h1 | h2
  · exact Or.inl h1
  · rcases omax_eq_some _ _ _ h2 with h3 | h4
    · exact Or.inr (Or.inl h3)
    · exact Or.inr (Or.inr h4)

theorem baseLayer_off_some (p t : List Char) (k : ℤ) (o : ℕ)
    (h : (baseLayer p t).off k = some o) : k = 0 ∧ o = extendo p t 0 0 := by
  have h2 : (if k = 0 then some (extendo p t 0 0) else none) = some o := h
  by_cases hk : k = 0
  · subst hk
    rw [if_pos rfl] at h2
    exact ⟨rfl, (Option.some_inj.mp h2).symm⟩
  · rw [if_neg hk] at h2
    exact absurd h2 (by simp)

/-- Offsets stored in layer `s + 1` are extensions of a recurrence
candidate. -/
theorem mwfS_succ_off_some (pen : LinealPen) (cfg : wavefront_reduction_t)
    (p t : List Char) (s : ℕ) (k : ℤ) (o : ℕ)
    (h : (mwfS pen cfg p t (s + 1)).off k = some o) :
    ∃ v, candsAt pen cfg p t s k = some v ∧ o = extendo p t k v := by
  rw [mwfS_succ] at h
  have h2 := reduceMaybe_off_some cfg _ k o h
  show ∃ v, candsOf p t _ _ k = some v ∧ o = extendo p t k v
  have h3 : (candsOf p t (predLayer pen.x (mwfL pen cfg p t s))
      (predLayer pen.b (mwfL pen cfg p t s)) k).map (extendo p t k) = some o := h2
  cases hc : candsOf p t (predLayer pen.x (mwfL pen cfg p t s))
      (predLayer pen.b (mwfL pen cfg p t s)) k with
  | none => rw [hc] at h3; exact absurd h3 (by simp)
  | some v =>
      rw [hc] at h3
      rw [Option.map_some'] at h3
      exact ⟨v, hc, (Option.some_inj.mp h3).symm⟩

theorem nullLayer_valid (p t : List Char) : ValidLayer p t nullLayer := by
  intro k o h
  exact absurd h (by simp [nullLayer])

theorem extendo_valid_cell (p t : List Char) (k : ℤ) (v : ℕ)
    (h1 : v ≤ p.length) (h2 : 0 ≤ (v : ℤ) + k) (h3 : (v : ℤ) + k ≤ (t.length : ℤ)) :
    extendo p t k v ≤ p.length ∧ 0 ≤ ((extendo p t k v : ℤ)) + k ∧
      ((extendo p t k v : ℤ)) + k ≤ (t.length : ℤ) ∧
      matchAt p t k (extendo p t k v) = false :=
  ⟨extendo_le_len p t k v h1, extendo_diag_nonneg p t k v h2,
    extendo_diag_le p t k v h3, extendo_stop p t k v⟩

theorem mwfS_valid (pen : LinealPen) (cfg : wavefront_reduction_t)
    (p t : List Char) : ∀ s, ValidLayer p t (mwfS pen cfg p t s) := by
  intro s
  induction s using Nat.strong_induction_on with
  | _ s ih =>
      cases s with
      | zero =>
          intro k o h
          rw [mwfS_zero] at h
          have h2 := reduceMaybe_off_some cfg _ k o h
          obtain ⟨rfl, rfl⟩ := baseLayer_off_some p t k o h2
          exact extendo_valid_cell p t 0 0 (by omega) (by omega) (by
            push_cast
            omega)
      | succ s =>
          intro k o h
          obtain ⟨v, hc, rfl⟩ := mwfS_succ_off_some pen cfg p t s k o h
          have hvalid : ∀ pq, 1 ≤ pq →
              ValidLayer p t (predLayer pq (mwfL pen cfg p t s)) := by
            intro pq hpq
            rw [predLayer_mwfL pen cfg p t s pq hpq]
            by_cases hle : pq ≤ s + 1
            · rw [if_pos hle]
              exact ih (s + 1 - pq) (by omega)
            · rw [if_neg hle]
              exact nullLayer_valid p t
          rcases candsOf_cases p t _ _ k v hc with hm | hi | hd
          · obtain ⟨o2, ho2, rfl, hlt, hdg⟩ := candMisF_some p t _ k v hm
            have hv := hvalid pen.x pen.x_pos k o2 ho2
            exact extendo_valid_cell p t k (o2 + 1) (by omega)
              (by have := hv.2.1; push_cast; omega)
              (by push_cast; omega)
          · obtain ⟨ho2, hdg⟩ := candInsF_some t _ k v hi
            have hv := hvalid pen.b pen.b_pos (k - 1) v ho2
            exact extendo_valid_cell p t k v hv.1
              (by have := hv.2.1; omega) hdg
          · obtain ⟨o2, ho2, rfl, hlt⟩ := candDelF_some p _ k v hd
            have hv := hvalid pen.b pen.b_pos (k + 1) o2 ho2
            exact extendo_valid_cell p t k (o2 + 1) (by omega)
              (by have := hv.2.1; push_cast; omega)
              (by have := hv.2.2.1; push_cast; omega)

theorem reduceMaybe_none (cfg : wavefront_reduction_t)
    (h : cfg.reduction_strategy
      = wavefront_reduction_type.wavefront_reduction_none) (L : WFLayer) :
    reduceMaybe cfg L = L := by
  unfold reduceMaybe
  rw [h]

theorem mwfS_zero_off_none (pen : LinealPen) (cfg : wavefront_reduction_t)
    (p t : List Char)
    (h : cfg.reduction_strategy
      = wavefront_reduction_type.wavefront_reduction_none) (k : ℤ) :
    (mwfS pen cfg p t 0).off k = (baseLayer p t).off k := by
  rw [mwfS_zero, reduceMaybe_none cfg h]

theorem mwfS_succ_off_none (pen : LinealPen) (cfg : wavefront_reduction_t)
    (p t : List Char)
    (h : cfg.reduction_strategy
      = wavefront_reduction_type.wavefront_reduction_none) (s : ℕ) (k : ℤ) :
    (mwfS pen cfg p t (s + 1)).off k
      = (candsAt pen cfg p t s k).map (extendo p t k) := by
  rw [mwfS_succ, reduceMaybe_none cfg h]
  rfl

theorem lxAt_eq (pen : LinealPen) (cfg : wavefront_reduction_t)
    (p t : List Char) (s : ℕ) (h : pen.x ≤ s + 1) :
    lxAt pen cfg p t s = mwfS pen cfg p t (s + 1 - pen.x) := by
  unfold lxAt
  rw [predLayer_mwfL pen cfg p t s pen.x pen.x_pos, if_pos h]

theorem lbAt_eq (pen : LinealPen) (cfg : wavefront_reduction_t)
    (p t : List Char) (s : ℕ) (h : pen.b ≤ s + 1) :
    lbAt pen cfg p t s = mwfS pen cfg p t (s + 1 - pen.b) := by
  unfold lbAt
  rw [predLayer_mwfL pen cfg p t s pen.b pen.b_pos, if_pos h]

theorem candMisF_of (p t : List Char) (lx : WFLayer) (k : ℤ) (o : ℕ)
    (h : lx.off k = some o) (h1 : o < p.length)
    (h2 : (o : ℤ) + k < (t.length : ℤ)) :
    candMisF p t lx k = some (o + 1) := by
  unfold candMisF
  rw [h, Option.some_bind, if_pos ⟨h1, h2⟩]

theorem candInsF_of (t : List Char) (lb : WFLayer) (k : ℤ) (o : ℕ)
    (h : lb.off (k - 1) = some o) (h2 : (o : ℤ) + k ≤ (t.length : ℤ)) :
    candInsF t lb k = some o := by
  unfold candInsF
  rw [h, Option.some_bind, if_pos h2]

theorem candDelF_of (p : List Char) (lb : WFLayer) (k : ℤ) (o : ℕ)
    (h : lb.off (k + 1) = some o) (h1 : o < p.length) :
    candDelF p lb k = some (o + 1) := by
  unfold candDelF
  rw [h, Option.some_bind, if_pos h1]

/-- A computed plain layer dominates every recurrence candidate. -/
theorem plain_off_ge_cands (pen : LinealPen) (cfg : wavefront_reduction_t)
    (p t : List Char)
    (hnone : cfg.reduction_strategy
      = wavefront_reduction_type.wavefront_reduction_none)
    (s : ℕ) (k : ℤ) (v : ℕ) (h : candsAt pen cfg p t s k = some v) :
    ∃ w, (mwfS pen cfg p t (s + 1)).off k = some w ∧ v ≤ w := by
  rw [mwfS_succ_off_none pen cfg p t hnone, h, Option.map_some']
  exact ⟨extendo p t k v, rfl, extendo_ge p t k v⟩

/-- Mismatch step: an offset at score `s` yields an offset one further
at score `s + x` on the same diagonal. -/
theorem plain_step_mis (pen : LinealPen) (cfg : wavefront_reduction_t)
    (p t : List Char)
    (hnone : cfg.reduction_strategy
      = wavefront_reduction_type.wavefront_reduction_none)
    (s : ℕ) (k : ℤ) (o : ℕ) (h : (mwfS pen cfg p t s).off k = some o)
    (h1 : o < p.length) (h2 : (o : ℤ) + k < (t.length : ℤ)) :
    ∃ v, (mwfS pen cfg p t (s + pen.x)).off k = some v ∧ o + 1 ≤ v := by
  have hx := pen.x_pos
  have hs1 : s + pen.x - 1 + 1 = s + pen.x := by omega
  have hlx : lxAt pen cfg p t (s + pen.x - 1) = mwfS pen cfg p t s := by
    rw [lxAt_eq pen cfg p t _ (by omega)]
    congr 1
    omega
  have hcm : candMisF p t (lxAt pen cfg p t (s + pen.x - 1)) k = some (o + 1) := by
    rw [hlx]
    exact candMisF_of p t _ k o h h1 h2
  obtain ⟨v0, hv0, hge⟩ := omax_ge_left _ (omax (candInsF t (lbAt pen cfg p t (s + pen.x - 1)) k)
    (candDelF p (lbAt pen cfg p t (s + pen.x - 1)) k)) (o + 1) hcm
  obtain ⟨w, hw, hvw⟩ := plain_off_ge_cands pen cfg p t hnone (s + pen.x - 1) k v0 hv0
  rw [hs1] at hw
  exact ⟨w, hw, by omega⟩

/-- Insertion step: an offset at score `s` on diagonal `k` yields an
offset at least as far at score `s + b` on diagonal `k + 1`. -/
theorem plain_step_ins (pen : LinealPen) (cfg : wavefront_reduction_t)
    (p t : List Char)
    (hnone : cfg.reduction_strategy
      = wavefront_reduction_type.wavefront_reduction_none)
    (s : ℕ) (k : ℤ) (o : ℕ) (h : (mwfS pen cfg p t s).off k = some o)
    (h2 : (o : ℤ) + (k + 1) ≤ (t.length : ℤ)) :
    ∃ v, (mwfS pen cfg p t (s + pen.b)).off (k + 1) = some v ∧ o ≤ v := by
  have hb := pen.b_pos
  have hs1 : s + pen.b - 1 + 1 = s + pen.b := by omega
  have hlb : lbAt pen cfg p t (s + pen.b - 1) = mwfS pen cfg p t s := by
    rw [lbAt_eq pen cfg p t _ (by omega)]
    congr 1
    omega
  have hci : candInsF t (lbAt pen cfg p t (s + pen.b - 1)) (k + 1) = some o := by
    rw [hlb]
    exact candInsF_of t _ (k + 1) o (by rw [show k + 1 - 1 = k by ring]; exact h) h2
  obtain ⟨v1, hv1, hge1⟩ := omax_ge_left _
    (candDelF p (lbAt pen cfg p t (s + pen.b - 1)) (k + 1)) o hci
  obtain ⟨v0, hv0, hge0⟩ := omax_ge_right
    (candMisF p t (lxAt pen cfg p t (s + pen.b - 1)) (k + 1)) _ v1 hv1
  obtain ⟨w, hw, hvw⟩ := plain_off_ge_cands pen cfg p t hnone (s + pen.b - 1) (k + 1) v0 hv0
  rw [hs1] at hw
  exact ⟨w, hw, by omega⟩

/-- Deletion step: an offset at score `s` on diagonal `k` yields an
offset one further at score `s + b` on diagonal `k − 1`. -/
theorem plain_step_del (pen : LinealPen) (cfg : wavefront_reduction_t)
    (p t : List Char)
    (hnone : cfg.reduction_strategy
      = wavefront_reduction_type.wavefront_reduction_none)
    (s : ℕ) (k : ℤ) (o : ℕ) (h : (mwfS pen cfg p t s).off k = some o)
    (h1 : o < p.length) :
    ∃ v, (mwfS pen cfg p t (s + pen.b)).off (k - 1) = some v ∧ o + 1 ≤ v := by
  have hb := pen.b_pos
  have hs1 : s + pen.b - 1 + 1 = s + pen.b := by omega
  have hlb : lbAt pen cfg p t (s + pen.b - 1) = mwfS pen cfg p t s := by
    rw [lbAt_eq pen cfg p t _ (by omega)]
    congr 1
    omega
  have hcd : candDelF p (lbAt pen cfg p t (s + pen.b - 1)) (k - 1) = some (o + 1) := by
    rw [hlb]
    exact candDelF_of p _ (k - 1) o (by rw [show k - 1 + 1 = k by ring]; exact h) h1
  obtain ⟨v1, hv1, hge1⟩ := omax_ge_right
    (candInsF t (lbAt pen cfg p t (s + pen.b - 1)) (k - 1)) _ (o + 1) hcd
  obtain ⟨v0, hv0, hge0⟩ := omax_ge_right
    (candMisF p t (lxAt pen cfg p t (s + pen.b - 1)) (k - 1)) _ v1 hv1
  obtain ⟨w, hw, hvw⟩ := plain_off_ge_cands pen cfg p t hnone (s + pen.b - 1) (k - 1) v0 hv0
  rw [hs1] at hw
  exact ⟨w, hw, by omega⟩

/-- Offsets on the bottom row of the grid slide towards the corner by
insertions, one indel penalty per diagonal. -/
theorem slide_ins_iter (pen : LinealPen) (cfg : wavefront_reduction_t)
    (p t : List Char)
    (hnone : cfg.reduction_strategy
      = wavefront_reduction_type.wavefront_reduction_none)
    (s : ℕ) (k : ℤ) (h : (mwfS pen cfg p t s).off k = some p.length) :
    ∀ d : ℕ, (p.length : ℤ) + k + d ≤ (t.length : ℤ) →
      (mwfS pen cfg p t (s + pen.b * d)).off (k + d) = some p.length := by
  intro d
  induction d with
  | zero =>
      intro _
      simpa using h
  | succ d ih =>
      intro hd
      have hprev := ih (by push_cast at hd ⊢; omega)
      obtain ⟨v, hv, hge⟩ := plain_step_ins pen cfg p t hnone (s + pen.b * d)
        (k + d) p.length hprev (by push_cast at hd ⊢; omega)
      have hval := (mwfS_valid pen cfg p t (s + pen.b * d + pen.b)) (k + d + 1) v hv
      have hveq : v = p.length := by omega
      subst hveq
      have hs : s + pen.b * d + pen.b = s + pen.b * (d + 1) := by ring
      have hk : k + (d : ℤ) + 1 = k + ((d + 1 : ℕ) : ℤ) := by push_cast; ring
      rw [hs, hk] at hv
      exact hv

/-- Offsets on the right column of the grid slide towards the corner by
deletions, one indel penalty per diagonal. -/
theorem slide_del_iter (pen : LinealPen) (cfg : wavefront_reduction_t)
    (p t : List Char)
    (hnone : cfg.reduction_strategy
      = wavefront_reduction_type.wavefront_reduction_none)
    (s : ℕ) (k : ℤ) (o : ℕ) (h : (mwfS pen cfg p t s).off k = some o)
    (hn : (o : ℤ) + k = (t.length : ℤ)) :
    ∀ d : ℕ, o + d ≤ p.length →
      (mwfS pen cfg p t (s + pen.b * d)).off (k - d) = some (o + d) := by
  intro d
  induction d with
  | zero =>
      intro _
      simpa using h
  | succ d ih =>
      intro hd
      have hprev := ih (by omega)
      obtain ⟨v, hv, hge⟩ := plain_step_del pen cfg p t hnone (s + pen.b * d)
        (k - d) (o + d) hprev (by omega)
      have hval := (mwfS_valid pen cfg p t (s + pen.b * d + pen.b)) (k - d - 1) v hv
      have hveq : v = o + d + 1 := by
        have h2 := hval.2.2.1
        push_cast at h2
        omega
      subst hveq
      have hs : s + pen.b * d + pen.b = s + pen.b * (d + 1) := by ring
      have hk : k - (d : ℤ) - 1 = k - ((d + 1 : ℕ) : ℤ) := by push_cast; ring
      rw [hs, hk] at hv
      have ho : o + d + 1 = o + (d + 1) := by omega
      rw [ho] at hv
      exact hv

/-- A full-pattern offset anywhere on the bottom row leads to the
corner cell within `b · (remaining text)` extra score. -/
theorem corner_from_bottom (pen : LinealPen) (cfg : wavefront_reduction_t)
    (p t : List Char)
    (hnone : cfg.reduction_strategy
      = wavefront_reduction_type.wavefront_reduction_none)
    (s : ℕ) (k : ℤ) (h : (mwfS pen cfg p t s).off k = some p.length)
    (hk : (p.length : ℤ) + k ≤ (t.length : ℤ)) :
    (mwfS pen cfg p t
        (s + pen.b * ((t.length : ℤ) - ((p.length : ℤ) + k)).toNat)).off
      ((t.length : ℤ) - (p.length : ℤ)) = some p.length := by
  have hd : (((((t.length : ℤ) - ((p.length : ℤ) + k)).toNat : ℕ)) : ℤ)
      = (t.length : ℤ) - ((p.length : ℤ) + k) := Int.toNat_of_nonneg (by omega)
  have := slide_ins_iter pen cfg p t hnone s k h
    ((t.length : ℤ) - ((p.length : ℤ) + k)).toNat (by omega)
  rw [show k + ((((t.length : ℤ) - ((p.length : ℤ) + k)).toNat : ℕ) : ℤ)
      = (t.length : ℤ) - (p.length : ℤ) by omega] at this
  exact this

/-- An offset anywhere on the right column leads to the corner cell
within `b · (remaining pattern)` extra score. -/
theorem corner_from_right (pen : LinealPen) (cfg : wavefront_reduction_t)
    (p t : List Char)
    (hnone : cfg.reduction_strategy
      = wavefront_reduction_type.wavefront_reduction_none)
    (s : ℕ) (k : ℤ) (o : ℕ) (h : (mwfS pen cfg p t s).off k = some o)
    (hn : (o : ℤ) + k = (t.length : ℤ)) (ho : o ≤ p.length) :
    (mwfS pen cfg p t (s + pen.b * (p.length - o))).off
      ((t.length : ℤ) - (p.length : ℤ)) = some p.length := by
  have := slide_del_iter pen cfg p t hnone s k o h hn (p.length - o) (by omega)
  rw [show o + (p.length - o) = p.length by omega] at this
  rw [show k - ((p.length - o : ℕ) : ℤ) = (t.length : ℤ) - (p.length : ℤ) by
    push_cast [Nat.cast_sub ho]
    omega] at this
  exact this

theorem D_drop_succ_le (pen : LinealPen) (p t : List Char) (i j : ℕ)
    (hi : i < p.length) (hj : j < t.length) :
    editDP pen (p.drop (i + 1)) (t.drop (j + 1))
      ≤ editDP pen (p.drop i) (t.drop j) := by
  rw [List.drop_eq_getElem_cons hi, List.drop_eq_getElem_cons hj]
  exact editDP_diag_mono pen _ _ _ _

theorem D_diag_mono_many (pen : LinealPen) (p t : List Char) :
    ∀ (d i j : ℕ), i + d ≤ p.length → j + d ≤ t.length →
      editDP pen (p.drop (i + d)) (t.drop (j + d))
        ≤ editDP pen (p.drop i) (t.drop j) := by
  intro d
  induction d with
  | zero => intro i j _ _; simp
  | succ d ih =>
      intro i j hi hj
      have h1 := ih (i + 1) (j + 1) (by omega) (by omega)
      have h2 := D_drop_succ_le pen p t i j (by omega) (by omega)
      calc editDP pen (p.drop (i + (d + 1))) (t.drop (j + (d + 1)))
          = editDP pen (p.drop (i + 1 + d)) (t.drop (j + 1 + d)) := by
            rw [show i + (d + 1) = i + 1 + d by omega,
              show j + (d + 1) = j + 1 + d by omega]
        _ ≤ editDP pen (p.drop (i + 1)) (t.drop (j + 1)) := h1
        _ ≤ editDP pen (p.drop i) (t.drop j) := h2

theorem D_bottom_row (pen : LinealPen) (p t : List Char) (j : ℕ) :
    editDP pen (p.drop p.length) (t.drop j) = pen.b * (t.length - j) := by
  rw [List.drop_length, editDP_nil_left, List.length_drop]

theorem D_right_col (pen : LinealPen) (p t : List Char) (i : ℕ) :
    editDP pen (p.drop i) (t.drop t.length) = pen.b * (p.length - i) := by
  rw [List.drop_length, editDP_nil_right, List.length_drop]

/-- The suffix cost from any cell dominates the pure-insertion cost from
the bottom cell of its diagonal. -/
theorem D_ge_bottom (pen : LinealPen) (p t : List Char) (i j : ℕ)
    (hi : i ≤ p.length) (hj : j + (p.length - i) ≤ t.length) :
    pen.b * (t.length - (j + (p.length - i)))
      ≤ editDP pen (p.drop i) (t.drop j) := by
  have := D_diag_mono_many pen p t (p.length - i) i j (by omega) hj
  rw [show i + (p.length - i) = p.length by omega, D_bottom_row] at this
  exact this

/-- The suffix cost from any cell dominates the pure-deletion cost from
the right-column cell of its diagonal. -/
theorem D_ge_right (pen : LinealPen) (p t : List Char) (i j : ℕ)
    (hj : j ≤ t.length) (hi : i + (t.length - j) ≤ p.length) :
    pen.b * (p.length - (i + (t.length - j)))
      ≤ editDP pen (p.drop i) (t.drop j) := by
  have := D_diag_mono_many pen p t (t.length - j) i j hi (by omega)
  rw [show j + (t.length - j) = t.length by omega, D_right_col] at this
  exact this

/-- Along a diagonal cell whose characters match, the suffix cost is
unchanged by taking the free diagonal step. -/
theorem D_eq_of_match (pen : LinealPen) (p t : List Char) (i j : ℕ)
    (hi : i < p.length) (hj : j < t.length)
    (hc : p.getD i (Char.ofNat 0) = t.getD j (Char.ofNat 0)) :
    editDP pen (p.drop i) (t.drop j)
      = editDP pen (p.drop (i + 1)) (t.drop (j + 1)) := by
  apply le_antisymm
  · rw [List.drop_eq_getElem_cons hi, List.drop_eq_getElem_cons hj]
    have h1 := editDP_le_diag pen (p[i]) (t[j]) (p.drop (i + 1)) (t.drop (j + 1))
    rw [List.getD_eq_getElem p _ hi, List.getD_eq_getElem t _ hj] at hc
    rw [if_pos hc] at h1
    simpa using h1
  · exact D_drop_succ_le pen p t i j hi hj

/-- At any non-corner cell, the suffix cost is realized by one of the
three DP transitions. -/
theorem D_achiever (pen : LinealPen) (p t : List Char) (i j : ℕ)
    (hi : i ≤ p.length) (hj : j ≤ t.length) (hne : ¬(i = p.length ∧ j = t.length)) :
    (i < p.length ∧ j < t.length ∧
      editDP pen (p.drop i) (t.drop j)
        = (if p.getD i (Char.ofNat 0) = t.getD j (Char.ofNat 0) then 0 else pen.x)
          + editDP pen (p.drop (i + 1)) (t.drop (j + 1))) ∨
    (j < t.length ∧ editDP pen (p.drop i) (t.drop j)
        = pen.b + editDP pen (p.drop i) (t.drop (j + 1))) ∨
    (i < p.length ∧ editDP pen (p.drop i) (t.drop j)
        = pen.b + editDP pen (p.drop (i + 1)) (t.drop j)) := by
  by_cases him : i = p.length
  · subst him
    have hjn : j < t.length := by
      rcases Nat.lt_or_ge j t.length with h | h
      · exact h
      · exact absurd ⟨rfl, by omega⟩ hne
    refine Or.inr (Or.inl ⟨hjn, ?_⟩)
    rw [D_bottom_row, D_bottom_row]
    have : t.length - j = (t.length - (j + 1)) + 1 := by omega
    rw [this, Nat.mul_add]
    ring
  · have him2 : i < p.length := by omega
    by_cases hjm : j = t.length
    · subst hjm
      refine Or.inr (Or.inr ⟨him2, ?_⟩)
      rw [D_right_col, D_right_col]
      have : p.length - i = (p.length - (i + 1)) + 1 := by omega
      rw [this, Nat.mul_add]
      ring
    · have hjm2 : j < t.length := by omega
      rw [List.drop_eq_getElem_cons him2, List.drop_eq_getElem_cons hjm2,
        editDP_cons_cons]
      rw [← List.drop_eq_getElem_cons him2, ← List.drop_eq_getElem_cons hjm2]
      rw [List.getD_eq_getElem p _ him2, List.getD_eq_getElem t _ hjm2]
      rcases Nat.le_total ((if p[i] = t[j] then 0 else pen.x)
          + editDP pen (p.drop (i + 1)) (t.drop (j + 1)))
          (min (pen.b + editDP pen (p.drop i) (t.drop (j + 1)))
            (pen.b + editDP pen (p.drop (i + 1)) (t.drop j)))
        with h | h
      · refine Or.inl ⟨him2, hjm2, ?_⟩
        rw [min_eq_left h]
      · rw [min_eq_right h]
        rcases Nat.le_total (pen.b + editDP pen (p.drop i) (t.drop (j + 1)))
            (pen.b + editDP pen (p.drop (i + 1)) (t.drop j))
          with h2 | h2
        · refine Or.inr (Or.inl ⟨hjm2, ?_⟩)
          rw [min_eq_left h2]
        · refine Or.inr (Or.inr ⟨him2, ?_⟩)
          rw [min_eq_right h2]

/-- Reaching the bottom row on the diagonal of an optimal-path cell
yields the corner within the optimal score. -/
theorem finish_bottom (pen : LinealPen) (cfg : wavefront_reduction_t)
    (p t : List Char)
    (hnone : cfg.reduction_strategy
      = wavefront_reduction_type.wavefront_reduction_none)
    (i j s : ℕ) (hi : i ≤ p.length) (hj : j ≤ t.length)
    (hacc : s + editDP pen (p.drop i) (t.drop j) = editDP pen p t)
    (hoff : (mwfS pen cfg p t s).off ((j : ℤ) - (i : ℤ)) = some p.length) :
    ∃ s2, s2 ≤ editDP pen p t ∧
      (mwfS pen cfg p t s2).off ((t.length : ℤ) - (p.length : ℤ))
        = some p.length := by
  have hval := mwfS_valid pen cfg p t s _ _ hoff
  have hk : (p.length : ℤ) + ((j : ℤ) - (i : ℤ)) ≤ (t.length : ℤ) := hval.2.2.1
  have hcorner := corner_from_bottom pen cfg p t hnone s _ hoff hk
  have htn : ((t.length : ℤ) - ((p.length : ℤ) + ((j : ℤ) - (i : ℤ)))).toNat
      = t.length - (j + (p.length - i)) := by omega
  rw [htn] at hcorner
  have hgeb := D_ge_bottom pen p t i j hi (by omega)
  refine ⟨_, ?_, hcorner⟩
  calc s + pen.b * (t.length - (j + (p.length - i)))
      ≤ s + editDP pen (p.drop i) (t.drop j) := Nat.add_le_add_left hgeb s
    _ = editDP pen p t := hacc

/-- Reaching the right column on the diagonal of an optimal-path cell
yields the corner within the optimal score. -/
theorem finish_right (pen : LinealPen) (cfg : wavefront_reduction_t)
    (p t : List Char)
    (hnone : cfg.reduction_strategy
      = wavefront_reduction_type.wavefront_reduction_none)
    (i j s o : ℕ) (hi : i ≤ p.length) (hj : j ≤ t.length)
    (hacc : s + editDP pen (p.drop i) (t.drop j) = editDP pen p t)
    (hoff : (mwfS pen cfg p t s).off ((j : ℤ) - (i : ℤ)) = some o)
    (hio : i ≤ o)
    (hn : (o : ℤ) + ((j : ℤ) - (i : ℤ)) = (t.length : ℤ)) :
    ∃ s2, s2 ≤ editDP pen p t ∧
      (mwfS pen cfg p t s2).off ((t.length : ℤ) - (p.length : ℤ))
        = some p.length := by
  have hval := mwfS_valid pen cfg p t s _ _ hoff
  have hom : o ≤ p.length := hval.1
  have hcorner := corner_from_right pen cfg p t hnone s _ o hoff hn hom
  have hoeq : i + (t.length - j) = o := by omega
  have hger := D_ge_right pen p t i j hj (by omega)
  rw [hoeq] at hger
  refine ⟨_, ?_, hcorner⟩
  calc s + pen.b * (p.length - o)
      ≤ s + editDP pen (p.drop i) (t.drop j) := Nat.add_le_add_left hger s
    _ = editDP pen p t := hacc

/-- Completeness of the plain engine: following an optimal alignment
path cell by cell, the wavefront reaches the corner cell within the
optimal score. -/
theorem fwd_corner (pen : LinealPen) (cfg : wavefront_reduction_t)
    (p t : List Char)
    (hnone : cfg.reduction_strategy
      = wavefront_reduction_type.wavefront_reduction_none) :
    ∀ (mu i j s : ℕ), (p.length - i) + (t.length - j) = mu →
      i ≤ p.length → j ≤ t.length →
      s + editDP pen (p.drop i) (t.drop j) = editDP pen p t →
      (∃ o, (mwfS pen cfg p t s).off ((j : ℤ) - (i : ℤ)) = some o ∧ i ≤ o) →
      ∃ s2, s2 ≤ editDP pen p t ∧
        (mwfS pen cfg p t s2).off ((t.length : ℤ) - (p.length : ℤ))
          = some p.length := by
  intro mu
  induction mu using Nat.strong_induction_on with
  | _ mu ih =>
    intro i j s hmu hi hj hacc hgood
    obtain ⟨o, hoff, hio⟩ := hgood
    have hval := mwfS_valid pen cfg p t s _ _ hoff
    by_cases hcorner : i = p.length ∧ j = t.length
    · obtain ⟨him, hjn⟩ := hcorner
      subst him
      subst hjn
      have hs : s = editDP pen p t := by
        rw [List.drop_length, List.drop_length] at hacc
        rw [editDP_nil_left] at hacc
        simpa using hacc
      have ho : o = p.length := by
        have := hval.1
        omega
      subst ho
      exact ⟨s, le_of_eq hs, hoff⟩
    · by_cases hmatch : matchAt p t ((j : ℤ) - (i : ℤ)) i = true
      · -- free diagonal step along a matching cell
        have hbounds := matchAt_bounds p t _ i hmatch
        have hj2 : j < t.length := by
          have := hbounds.2.2
          omega
        have hi2 : i < p.length := hbounds.1
        have hchars := matchAt_chars p t _ i hmatch
        have htn : ((i : ℤ) + ((j : ℤ) - (i : ℤ))).toNat = j := by omega
        rw [htn] at hchars
        have ho2 : i + 1 ≤ o := by
          rcases Nat.eq_or_lt_of_le hio with he | hlt
          · exfalso
            have := hval.2.2.2
            rw [← he] at this
            rw [hmatch] at this
            simp at this
          · omega
        have hDeq := D_eq_of_match pen p t i j hi2 hj2 hchars
        have hdiag : ((j + 1 : ℕ) : ℤ) - ((i + 1 : ℕ) : ℤ)
            = (j : ℤ) - (i : ℤ) := by push_cast; ring
        exact ih (mu - 2) (by omega) (i + 1) (j + 1) s (by omega) (by omega)
          (by omega) (by rw [← hDeq]; exact hacc)
          ⟨o, by rw [hdiag]; exact hoff, ho2⟩
      · rcases D_achiever pen p t i j hi hj hcorner with
          ⟨hi2, hj2, hD⟩ | ⟨hj2, hD⟩ | ⟨hi2, hD⟩
        · -- substitution step on the optimal path
          have hne : ¬(p.getD i (Char.ofNat 0) = t.getD j (Char.ofNat 0)) := by
            intro heq
            apply hmatch
            apply matchAt_of_parts p t _ i hi2 (by omega) (by omega)
            rw [show ((i : ℤ) + ((j : ℤ) - (i : ℤ))).toNat = j by omega]
            exact heq
          rw [if_neg hne] at hD
          by_cases ho1 : o < p.length ∧ (o : ℤ) + ((j : ℤ) - (i : ℤ)) < (t.length : ℤ)
          · obtain ⟨v, hv, hvge⟩ := plain_step_mis pen cfg p t hnone s _ o hoff
              ho1.1 ho1.2
            have hdiag : ((j + 1 : ℕ) : ℤ) - ((i + 1 : ℕ) : ℤ)
                = (j : ℤ) - (i : ℤ) := by push_cast; ring
            exact ih (mu - 2) (by omega) (i + 1) (j + 1) (s + pen.x) (by omega)
              (by omega) (by omega) (by omega)
              ⟨v, by rw [hdiag]; exact hv, by omega⟩
          · have hsplit : o = p.length ∨
                (o : ℤ) + ((j : ℤ) - (i : ℤ)) = (t.length : ℤ) := by
              have h1 := hval.1
              have h2 := hval.2.2.1
              omega
            rcases hsplit with hbl | hrl
            · subst hbl
              exact finish_bottom pen cfg p t hnone i j s hi hj hacc hoff
            · exact finish_right pen cfg p t hnone i j s o hi hj hacc hoff hio hrl
        · -- insertion step on the optimal path
          by_cases ho1 : (o : ℤ) + (((j : ℤ) - (i : ℤ)) + 1) ≤ (t.length : ℤ)
          · obtain ⟨v, hv, hvge⟩ := plain_step_ins pen cfg p t hnone s _ o hoff ho1
            have hdiag : ((j + 1 : ℕ) : ℤ) - (i : ℤ)
                = ((j : ℤ) - (i : ℤ)) + 1 := by push_cast; ring
            exact ih (mu - 1) (by omega) i (j + 1) (s + pen.b) (by omega)
              (by omega) (by omega) (by omega)
              ⟨v, by rw [hdiag]; exact hv, by omega⟩
          · have hrl : (o : ℤ) + ((j : ℤ) - (i : ℤ)) = (t.length : ℤ) := by
              have h2 := hval.2.2.1
              omega
            exact finish_right pen cfg p t hnone i j s o hi hj hacc hoff hio hrl
        · -- deletion step on the optimal path
          by_cases ho1 : o < p.length
          · obtain ⟨v, hv, hvge⟩ := plain_step_del pen cfg p t hnone s _ o hoff ho1
            have hdiag : ((j : ℤ)) - ((i + 1 : ℕ) : ℤ)
                = ((j : ℤ) - (i : ℤ)) - 1 := by push_cast; ring
            exact ih (mu - 1) (by omega) (i + 1) j (s + pen.b) (by omega)
              (by omega) (by omega) (by omega)
              ⟨v, by rw [hdiag]; exact hv, by omega⟩
          · have hbl : o = p.length := by
              have h1 := hval.1
              omega
            subst hbl
            exact finish_bottom pen cfg p t hnone i j s hi hj hacc hoff

theorem alignsB_append :
    ∀ (ops1 : List Op) (p1 t1 : List Char), alignsB ops1 p1 t1 = true →
      ∀ (ops2 : List Op) (p2 t2 : List Char), alignsB ops2 p2 t2 = true →
        alignsB (ops1 ++ ops2) (p1 ++ p2) (t1 ++ t2) = true := by
  intro ops1
  induction ops1 with
  | nil =>
      intro p1 t1 h ops2 p2 t2 h2
      cases p1 with
      | nil =>
          cases t1 with
          | nil => simpa using h2
          | cons c t1 => simp [alignsB] at h
      | cons a p1 => cases t1 <;> simp [alignsB] at h
  | cons op rest ih =>
      intro p1 t1 h ops2 p2 t2 h2
      cases op with
      | eq =>
          cases p1 with
          | nil => cases t1 <;> simp [alignsB] at h
          | cons a p1 =>
              cases t1 with
              | nil => simp [alignsB] at h
              | cons c t1 =>
                  simp only [alignsB, Bool.and_eq_true, beq_iff_eq] at h
                  have := ih p1 t1 h.2 ops2 p2 t2 h2
                  simp only [List.cons_append, alignsB, Bool.and_eq_true,
                    beq_iff_eq]
                  exact ⟨h.1, this⟩
      | sub =>
          cases p1 with
          | nil => cases t1 <;> simp [alignsB] at h
          | cons a p1 =>
              cases t1 with
              | nil => simp [alignsB] at h
              | cons c t1 =>
                  simp only [alignsB, Bool.and_eq_true, bne_iff_ne] at h
                  have := ih p1 t1 h.2 ops2 p2 t2 h2
                  simp only [List.cons_append, alignsB, Bool.and_eq_true,
                    bne_iff_ne]
                  exact ⟨h.1, this⟩
      | ins =>
          cases t1 with
          | nil => cases p1 <;> simp [alignsB] at h
          | cons c t1 =>
              have hrest : alignsB rest p1 t1 = true := by
                cases p1 <;> simpa [alignsB] using h
              have := ih p1 t1 hrest ops2 p2 t2 h2
              cases p1 with
              | nil => simpa [alignsB] using this
              | cons a p1 => simpa [alignsB] using this
      | del =>
          cases p1 with
          | nil => cases t1 <;> simp [alignsB] at h
          | cons a p1 =>
              have hrest : alignsB rest p1 t1 = true := by
                cases t1 <;> simpa [alignsB] using h
              have := ih p1 t1 hrest ops2 p2 t2 h2
              cases t1 with
              | nil => simpa [alignsB] using this
              | cons c t1 => simpa [alignsB] using this

theorem take_snoc_chr (l : List Char) (i : ℕ) (h : i < l.length) :
    l.take (i + 1) = l.take i ++ [l.getD i (Char.ofNat 0)] := by
  rw [List.take_succ, List.getElem?_eq_getElem h, List.getD_eq_getElem l _ h]
  rfl

theorem alignsB_single_eq (a c : Char) (h : a = c) :
    alignsB [Op.eq] [a] [c] = true := by
  subst h
  simp [alignsB]

theorem alignsB_single_sub (a c : Char) (h : ¬(a = c)) :
    alignsB [Op.sub] [a] [c] = true := by
  simp [alignsB, h]

theorem alignsB_snoc_eq (p t : List Char) (ops : List Op) (i j : ℕ)
    (h : alignsB ops (p.take i) (t.take j) = true) (hi : i < p.length)
    (hj : j < t.length)
    (hc : p.getD i (Char.ofNat 0) = t.getD j (Char.ofNat 0)) :
    alignsB (ops ++ [Op.eq]) (p.take (i + 1)) (t.take (j + 1)) = true := by
  rw [take_snoc_chr p i hi, take_snoc_chr t j hj]
  exact alignsB_append ops _ _ h [Op.eq] _ _ (alignsB_single_eq _ _ hc)

theorem alignsB_snoc_sub (p t : List Char) (ops : List Op) (i j : ℕ)
    (h : alignsB ops (p.take i) (t.take j) = true) (hi : i < p.length)
    (hj : j < t.length)
    (hc : ¬(p.getD i (Char.ofNat 0) = t.getD j (Char.ofNat 0))) :
    alignsB (ops ++ [Op.sub]) (p.take (i + 1)) (t.take (j + 1)) = true := by
  rw [take_snoc_chr p i hi, take_snoc_chr t j hj]
  exact alignsB_append ops _ _ h [Op.sub] _ _ (alignsB_single_sub _ _ hc)

theorem alignsB_snoc_ins (p t : List Char) (ops : List Op) (i j : ℕ)
    (h : alignsB ops (p.take i) (t.take j) = true) (hj : j < t.length) :
    alignsB (ops ++ [Op.ins]) (p.take i) (t.take (j + 1)) = true := by
  rw [take_snoc_chr t j hj, show p.take i = p.take i ++ [] by simp]
  exact alignsB_append ops _ _ h [Op.ins] [] _ (by simp [alignsB])

theorem alignsB_snoc_del (p t : List Char) (ops : List Op) (i j : ℕ)
    (h : alignsB ops (p.take i) (t.take j) = true) (hi : i < p.length) :
    alignsB (ops ++ [Op.del]) (p.take (i + 1)) (t.take j) = true := by
  rw [take_snoc_chr p i hi, show t.take j = t.take j ++ [] by simp]
  exact alignsB_append ops _ _ h [Op.del] _ [] (by simp [alignsB])

theorem matchAt_false_chars (p t : List Char) (k : ℤ) (o : ℕ)
    (h1 : o < p.length) (h2 : 0 ≤ (o : ℤ) + k) (h3 : (o : ℤ) + k < (t.length : ℤ))
    (hf : matchAt p t k o = false) :
    ¬(p.getD o (Char.ofNat 0) = t.getD ((o : ℤ) + k).toNat (Char.ofNat 0)) := by
  intro hc
  rw [matchAt_of_parts p t k o h1 h2 h3 hc] at hf
  simp at hf

/-- Appending the matching run of a greedy extension to a replay. -/
theorem alignsB_extend_run (p t : List Char) (k : ℤ) (v : ℕ) (jv : ℕ)
    (hjv : (jv : ℤ) = (v : ℤ) + k) :
    ∀ (d : ℕ), (∀ i, v ≤ i → i < v + d → matchAt p t k i = true) →
      ∀ (ops : List Op), alignsB ops (p.take v) (t.take jv) = true →
        alignsB (ops ++ List.replicate d Op.eq) (p.take (v + d))
          (t.take (jv + d)) = true := by
  intro d
  induction d with
  | zero => intro _ ops h; simpa using h
  | succ d ih =>
      intro hmat ops h
      have hstep := hmat (v + d) (by omega) (by omega)
      have hb := matchAt_bounds p t k (v + d) hstep
      have hc := matchAt_chars p t k (v + d) hstep
      have hjd : (((v + d : ℕ) : ℤ) + k).toNat = jv + d := by omega
      rw [hjd] at hc
      have hjn : jv + d < t.length := by
        have := hb.2.2
        omega
      have hprev := ih (fun i hi1 hi2 => hmat i hi1 (by omega)) ops h
      have := alignsB_snoc_eq p t (ops ++ List.replicate d Op.eq) (v + d)
        (jv + d) hprev hb.1 hjn hc
      rw [List.append_assoc, ← List.replicate_succ' d Op.eq] at this
      rw [show v + (d + 1) = v + d + 1 by omega, show jv + (d + 1) = jv + d + 1 by omega]
      exact this

theorem lxAt_off_some (pen : LinealPen) (cfg : wavefront_reduction_t)
    (p t : List Char) (s : ℕ) (k : ℤ) (o : ℕ)
    (h : (lxAt pen cfg p t s).off k = some o) :
    pen.x ≤ s + 1 ∧ (mwfS pen cfg p t (s + 1 - pen.x)).off k = some o := by
  by_cases hle : pen.x ≤ s + 1
  · refine ⟨hle, ?_⟩
    rw [lxAt_eq pen cfg p t s hle] at h
    exact h
  · exfalso
    unfold lxAt at h
    rw [predLayer_mwfL pen cfg p t s pen.x pen.x_pos, if_neg hle] at h
    exact absurd h (by simp [nullLayer])

theorem lbAt_off_some (pen : LinealPen) (cfg : wavefront_reduction_t)
    (p t : List Char) (s : ℕ) (k : ℤ) (o : ℕ)
    (h : (lbAt pen cfg p t s).off k = some o) :
    pen.b ≤ s + 1 ∧ (mwfS pen cfg p t (s + 1 - pen.b)).off k = some o := by
  by_cases hle : pen.b ≤ s + 1
  · refine ⟨hle, ?_⟩
    rw [lbAt_eq pen cfg p t s hle] at h
    exact h
  · exfalso
    unfold lbAt at h
    rw [predLayer_mwfL pen cfg p t s pen.b pen.b_pos, if_neg hle] at h
    exact absurd h (by simp [nullLayer])

/-- Replaying the matching run of a stored layer-0 cell. -/
theorem bt_base_spec (pen : LinealPen) (cfg : wavefront_reduction_t)
    (p t : List Char) (k : ℤ) (o : ℕ)
    (h : (mwfS pen cfg p t 0).off k = some o) :
    alignsB (List.replicate o Op.eq) (p.take o)
        (t.take ((o : ℤ) + k).toNat) = true ∧
      opsCost pen (List.replicate o Op.eq) = 0 := by
  rw [mwfS_zero] at h
  obtain ⟨rfl, rfl⟩ := baseLayer_off_some p t k o (reduceMaybe_off_some cfg _ k o h)
  constructor
  · have hrun := alignsB_extend_run p t 0 0 0 (by omega) (extendo p t 0 0)
      (fun i hi1 hi2 => extendo_matches p t 0 0 i hi1 (by omega)) []
      (by simp [alignsB])
    simp only [List.nil_append, Nat.zero_add] at hrun
    have htn : ((extendo p t 0 0 : ℤ) + 0).toNat = extendo p t 0 0 := by omega
    rw [htn]
    exact hrun
  · rw [opsCost_replicate]
    simp [opCost]

/-- Correctness of backtrace reconstruction: the decoded operation list
replays to the consumed prefixes and costs exactly the cell's score. -/
theorem btAux_spec (pen : LinealPen) (cfg : wavefront_reduction_t)
    (p t : List Char) :
    ∀ (fuel s : ℕ), s ≤ fuel → ∀ (k : ℤ) (o : ℕ),
      (mwfS pen cfg p t s).off k = some o →
      alignsB (btAux pen cfg p t fuel s k o) (p.take o)
          (t.take ((o : ℤ) + k).toNat) = true ∧
        opsCost pen (btAux pen cfg p t fuel s k o) = s := by
  intro fuel
  induction fuel with
  | zero =>
      intro s hs k o h
      obtain rfl : s = 0 := by omega
      exact bt_base_spec pen cfg p t k o h
  | succ fuel ih =>
      intro s hs k o h
      cases s with
      | zero => exact bt_base_spec pen cfg p t k o h
      | succ s0 =>
          obtain ⟨v, hc, hov⟩ := mwfS_succ_off_some pen cfg p t s0 k o h
          have hxp := pen.x_pos
          have hbp := pen.b_pos
          have hvo : v ≤ o := by rw [hov]; exact extendo_ge p t k v
          have hbt : btAux pen cfg p t (fuel + 1) (s0 + 1) k o
              = (if candMisF p t (lxAt pen cfg p t s0) k = some v then
                  btAux pen cfg p t fuel (s0 + 1 - pen.x) k (v - 1)
                    ++ Op.sub :: List.replicate (o - v) Op.eq
                else if candInsF t (lbAt pen cfg p t s0) k = some v then
                  btAux pen cfg p t fuel (s0 + 1 - pen.b) (k - 1) v
                    ++ Op.ins :: List.replicate (o - v) Op.eq
                else
                  btAux pen cfg p t fuel (s0 + 1 - pen.b) (k + 1) (v - 1)
                    ++ Op.del :: List.replicate (o - v) Op.eq) := by
            show (match candsAt pen cfg p t s0 k with
              | none => []
              | some v => _) = _
            rw [hc]
          by_cases hmis : candMisF p t (lxAt pen cfg p t s0) k = some v
          · rw [hbt, if_pos hmis]
            obtain ⟨o2, ho2, rfl, ho2m, ho2n⟩ := candMisF_some p t _ k v hmis
            obtain ⟨hxle, hst⟩ := lxAt_off_some pen cfg p t s0 k o2 ho2
            have hval := mwfS_valid pen cfg p t (s0 + 1 - pen.x) k o2 hst
            obtain ⟨hal, hcost⟩ := ih (s0 + 1 - pen.x) (by omega) k o2 hst
            have hsub := alignsB_snoc_sub p t _ o2 (((o2 : ℤ) + k).toNat) hal
              ho2m (by omega)
              (matchAt_false_chars p t k o2 ho2m hval.2.1 ho2n hval.2.2.2)
            have hrun := alignsB_extend_run p t k (o2 + 1) (((o2 : ℤ) + k).toNat + 1)
              (by push_cast; omega) (o - (o2 + 1))
              (fun i hi1 hi2 =>
                extendo_matches p t k (o2 + 1) i hi1 (by omega)) _ hsub
            constructor
            · rw [show btAux pen cfg p t fuel (s0 + 1 - pen.x) k (o2 + 1 - 1)
                    ++ Op.sub :: List.replicate (o - (o2 + 1)) Op.eq
                  = (btAux pen cfg p t fuel (s0 + 1 - pen.x) k (o2 + 1 - 1)
                    ++ [Op.sub]) ++ List.replicate (o - (o2 + 1)) Op.eq by simp]
              rw [show o2 + 1 - 1 = o2 by omega]
              rw [show o2 + 1 + (o - (o2 + 1)) = o by omega] at hrun
              rw [show (((o2 : ℤ) + k).toNat + 1) + (o - (o2 + 1))
                  = ((o : ℤ) + k).toNat by omega] at hrun
              exact hrun
            · rw [show o2 + 1 - 1 = o2 by omega]
              rw [opsCost_append, opsCost_cons, opsCost_replicate, hcost]
              simp only [opCost]
              omega
          · by_cases hins : candInsF t (lbAt pen cfg p t s0) k = some v
            · rw [hbt, if_neg hmis, if_pos hins]
              obtain ⟨hv0, hvn⟩ := candInsF_some t _ k v hins
              obtain ⟨hble, hst⟩ := lbAt_off_some pen cfg p t s0 (k - 1) v hv0
              have hval := mwfS_valid pen cfg p t (s0 + 1 - pen.b) (k - 1) v hst
              obtain ⟨hal, hcost⟩ := ih (s0 + 1 - pen.b) (by omega) (k - 1) v hst
              have hins2 := alignsB_snoc_ins p t _ v (((v : ℤ) + (k - 1)).toNat) hal
                (by have := hval.2.1; omega)
              have hrun := alignsB_extend_run p t k v
                ((((v : ℤ) + (k - 1)).toNat) + 1)
                (by have := hval.2.1; push_cast; omega) (o - v)
                (fun i hi1 hi2 =>
                  extendo_matches p t k v i hi1 (by omega)) _ hins2
              constructor
              · rw [show btAux pen cfg p t fuel (s0 + 1 - pen.b) (k - 1) v
                      ++ Op.ins :: List.replicate (o - v) Op.eq
                    = (btAux pen cfg p t fuel (s0 + 1 - pen.b) (k - 1) v
                      ++ [Op.ins]) ++ List.replicate (o - v) Op.eq by simp]
                rw [show v + (o - v) = o by omega] at hrun
                rw [show ((((v : ℤ) + (k - 1)).toNat) + 1) + (o - v)
                    = ((o : ℤ) + k).toNat by
                  have := hval.2.1
                  omega] at hrun
                exact hrun
              · rw [opsCost_append, opsCost_cons, opsCost_replicate, hcost]
                simp only [opCost]
                omega
            · rw [hbt, if_neg hmis, if_neg hins]
              have hdel : candDelF p (lbAt pen cfg p t s0) k = some v := by
                rcases candsOf_cases p t _ _ k v hc with h1 | h2 | h3
                · exact absurd h1 hmis
                · exact absurd h2 hins
                · exact h3
              obtain ⟨o2, ho2, rfl, ho2m⟩ := candDelF_some p _ k v hdel
              obtain ⟨hble, hst⟩ := lbAt_off_some pen cfg p t s0 (k + 1) o2 ho2
              have hval := mwfS_valid pen cfg p t (s0 + 1 - pen.b) (k + 1) o2 hst
              obtain ⟨hal, hcost⟩ := ih (s0 + 1 - pen.b) (by omega) (k + 1) o2 hst
              have hdel2 := alignsB_snoc_del p t _ o2 (((o2 : ℤ) + (k + 1)).toNat)
                hal ho2m
              have hrun := alignsB_extend_run p t k (o2 + 1)
                (((o2 : ℤ) + (k + 1)).toNat)
                (by have := hval.2.1; push_cast; omega) (o - (o2 + 1))
                (fun i hi1 hi2 =>
                  extendo_matches p t k (o2 + 1) i hi1 (by omega)) _ hdel2
              constructor
              · rw [show btAux pen cfg p t fuel (s0 + 1 - pen.b) (k + 1) (o2 + 1 - 1)
                      ++ Op.del :: List.replicate (o - (o2 + 1)) Op.eq
                    = (btAux pen cfg p t fuel (s0 + 1 - pen.b) (k + 1) (o2 + 1 - 1)
                      ++ [Op.del]) ++ List.replicate (o - (o2 + 1)) Op.eq by simp]
                rw [show o2 + 1 - 1 = o2 by omega]
                rw [show o2 + 1 + (o - (o2 + 1)) = o by omega] at hrun
                rw [show (((o2 : ℤ) + (k + 1)).toNat) + (o - (o2 + 1))
                    = ((o : ℤ) + k).toNat by
                  have := hval.2.1
                  omega] at hrun
                exact hrun
              · rw [show o2 + 1 - 1 = o2 by omega]
                rw [opsCost_append, opsCost_cons, opsCost_replicate, hcost]
                simp only [opCost]
                omega

theorem alignLoop_succ_eq (a : wavefront_aligner_t) (p t : List Char)
    (fuel s : ℕ) :
    alignLoop a p t (fuel + 1) s
      = (if s % a.limit_probe_interval = 0 ∧ a.max_alignment_score < s then
          ⟨wf_align_status.wf_align_max_score_reached, none, none⟩
        else if s % a.limit_probe_interval = 0 ∧ a.max_memory_used < memUsed a s then
          ⟨wf_align_status.wf_align_max_memory_reached, none, none⟩
        else if reachedB a.penalties a.reduction p t s then
          ⟨wf_align_status.wf_align_successful, some s,
            if a.alignment_scope = alignment_scope_t.alignment_scope_alignment then
              some (backtraceF a.penalties a.reduction p t s
                ((t.length : ℤ) - (p.length : ℤ)) p.length)
            else none⟩
        else alignLoop a p t fuel (s + 1)) := rfl

/-- A successful loop outcome returns the first score at which the
termination test holds, together with the scope-dependent CIGAR. -/
theorem alignLoop_success_spec (a : wavefront_aligner_t) (p t : List Char) :
    ∀ (fuel s : ℕ),
      (alignLoop a p t fuel s).status = wf_align_status.wf_align_successful →
      ∃ r, s ≤ r ∧ reachedB a.penalties a.reduction p t r = true ∧
        (∀ j, s ≤ j → j < r → reachedB a.penalties a.reduction p t j = false) ∧
        (alignLoop a p t fuel s).score = some r ∧
        (alignLoop a p t fuel s).cigar
          = (if a.alignment_scope = alignment_scope_t.alignment_scope_alignment then
              some (backtraceF a.penalties a.reduction p t r
                ((t.length : ℤ) - (p.length : ℤ)) p.length)
            else none) := by
  intro fuel
  induction fuel with
  | zero =>
      intro s h
      exact absurd h (by simp [alignLoop])
  | succ fuel ih =>
      intro s h
      rw [alignLoop_succ_eq] at h ⊢
      by_cases h1 : s % a.limit_probe_interval = 0 ∧ a.max_alignment_score < s
      · rw [if_pos h1] at h
        exact absurd h (by simp)
      · rw [if_neg h1] at h ⊢
        by_cases h2 : s % a.limit_probe_interval = 0 ∧
            a.max_memory_used < memUsed a s
        · rw [if_pos h2] at h
          exact absurd h (by simp)
        · rw [if_neg h2] at h ⊢
          by_cases h3 : reachedB a.penalties a.reduction p t s = true
          · rw [if_pos h3]
            exact ⟨s, le_refl s, h3, fun j hj1 hj2 => absurd hj2 (by omega),
              rfl, rfl⟩
          · rw [if_neg h3] at h ⊢
            obtain ⟨r, hr1, hr2, hr3, hr4, hr5⟩ := ih (s + 1) h
            refine ⟨r, by omega, hr2, ?_, hr4, hr5⟩
            intro j hj1 hj2
            rcases Nat.eq_or_lt_of_le hj1 with he | hlt
            · simp only [Bool.not_eq_true] at h3
              rw [← he]
              exact h3
            · exact hr3 j (by omega) hj2

/-- The loop only reports a score on success. -/
theorem alignLoop_score_status (a : wavefront_aligner_t) (p t : List Char) :
    ∀ (fuel s r : ℕ), (alignLoop a p t fuel s).score = some r →
      (alignLoop a p t fuel s).status = wf_align_status.wf_align_successful := by
  intro fuel
  induction fuel with
  | zero =>
      intro s r h
      exact absurd h (by simp [alignLoop])
  | succ fuel ih =>
      intro s r h
      rw [alignLoop_succ_eq] at h ⊢
      by_cases h1 : s % a.limit_probe_interval = 0 ∧ a.max_alignment_score < s
      · rw [if_pos h1] at h
        exact absurd h (by simp)
      · rw [if_neg h1] at h ⊢
        by_cases h2 : s % a.limit_probe_interval = 0 ∧
            a.max_memory_used < memUsed a s
        · rw [if_pos h2] at h
          exact absurd h (by simp)
        · rw [if_neg h2] at h ⊢
          by_cases h3 : reachedB a.penalties a.reduction p t s = true
          · rw [if_pos h3]
          · rw [if_neg h3] at h ⊢
            exact ih (s + 1) r h

/-- Aborted loop outcomes carry neither a score nor a CIGAR. -/
theorem alignLoop_abort_none (a : wavefront_aligner_t) (p t : List Char) :
    ∀ (fuel s : ℕ),
      (alignLoop a p t fuel s).status ≠ wf_align_status.wf_align_successful →
      (alignLoop a p t fuel s).score = none ∧
        (alignLoop a p t fuel s).cigar = none := by
  intro fuel
  induction fuel with
  | zero => intro s _; exact ⟨rfl, rfl⟩
  | succ fuel ih =>
      intro s h
      rw [alignLoop_succ_eq] at h ⊢
      by_cases h1 : s % a.limit_probe_interval = 0 ∧ a.max_alignment_score < s
      · rw [if_pos h1]
        exact ⟨rfl, rfl⟩
      · rw [if_neg h1] at h ⊢
        by_cases h2 : s % a.limit_probe_interval = 0 ∧
            a.max_memory_used < memUsed a s
        · rw [if_pos h2]
          exact ⟨rfl, rfl⟩
        · rw [if_neg h2] at h ⊢
          by_cases h3 : reachedB a.penalties a.reduction p t s = true
          · rw [if_pos h3] at h
            exact absurd rfl h
          · rw [if_neg h3] at h ⊢
            exact ih (s + 1) h

/-- If some score within the fuel window passes the termination test and
no limit check trips on the way, the loop succeeds. -/
theorem alignLoop_complete (a : wavefront_aligner_t) (p t : List Char) :
    ∀ (fuel s r : ℕ), reachedB a.penalties a.reduction p t r = true →
      s ≤ r → r < s + fuel →
      (∀ j, s ≤ j → j ≤ r → ¬(a.max_alignment_score < j)) →
      (∀ j, s ≤ j → j ≤ r → ¬(a.max_memory_used < memUsed a j)) →
      (alignLoop a p t fuel s).status = wf_align_status.wf_align_successful := by
  intro fuel
  induction fuel with
  | zero =>
      intro s r _ h1 h2 _ _
      omega
  | succ fuel ih =>
      intro s r hr hsr hfuel hsc hmem
      rw [alignLoop_succ_eq]
      rw [if_neg (by
        intro hc
        exact hsc s (le_refl s) hsr hc.2)]
      rw [if_neg (by
        intro hc
        exact hmem s (le_refl s) hsr hc.2)]
      by_cases h3 : reachedB a.penalties a.reduction p t s = true
      · rw [if_pos h3]
      · rw [if_neg h3]
        have hne : s ≠ r := by
          intro he
          rw [he] at h3
          exact h3 hr
        exact ih (s + 1) r hr (by omega) (by omega)
          (fun j hj1 hj2 => hsc j (by omega) hj2)
          (fun j hj1 hj2 => hmem j (by omega) hj2)

/-- Soundness of the termination test: a reached score is realized by an
actual alignment script, so it dominates the reference DP score. -/
theorem reached_sound (pen : LinealPen) (cfg : wavefront_reduction_t)
    (p t : List Char) (s : ℕ) (h : reachedB pen cfg p t s = true) :
    editDP pen p t ≤ s := by
  have hoff : (mwfS pen cfg p t s).off ((t.length : ℤ) - (p.length : ℤ))
      = some p.length := by
    have := eq_of_beq h
    exact this
  obtain ⟨hal, hcost⟩ := btAux_spec pen cfg p t s s (le_refl s) _ _ hoff
  rw [List.take_length] at hal
  rw [show (((p.length : ℤ)) + ((t.length : ℤ) - (p.length : ℤ))).toNat
      = t.length by omega] at hal
  rw [List.take_length] at hal
  have := editDP_le_opsCost pen _ p t hal
  omega

/-- Completeness for the plain engine: the termination test holds at
some score bounded by the reference DP score. -/
theorem plain_exists_reach (pen : LinealPen) (cfg : wavefront_reduction_t)
    (p t : List Char)
    (hnone : cfg.reduction_strategy
      = wavefront_reduction_type.wavefront_reduction_none) :
    ∃ s, s ≤ editDP pen p t ∧ reachedB pen cfg p t s = true := by
  have hbase : (mwfS pen cfg p t 0).off (((0 : ℕ) : ℤ) - ((0 : ℕ) : ℤ))
      = some (extendo p t 0 0) := by
    rw [mwfS_zero_off_none pen cfg p t hnone]
    show (if (((0 : ℕ) : ℤ) - ((0 : ℕ) : ℤ)) = 0 then some (extendo p t 0 0)
      else none) = some (extendo p t 0 0)
    rw [if_pos (by omega)]
  obtain ⟨s2, hs2, hoff⟩ := fwd_corner pen cfg p t hnone
    (p.length + t.length) 0 0 0 (by omega) (by omega) (by omega)
    (by simp) ⟨extendo p t 0 0, hbase, by omega⟩
  refine ⟨s2, hs2, ?_⟩
  unfold reachedB
  rw [hoff]
  simp

/-- A reached score replays: the reconstructed CIGAR replays the whole
pattern and text at exactly that cost. -/
theorem reached_replay (pen : LinealPen) (cfg : wavefront_reduction_t)
    (p t : List Char) (s : ℕ) (h : reachedB pen cfg p t s = true) :
    alignsB (backtraceF pen cfg p t s ((t.length : ℤ) - (p.length : ℤ))
        p.length) p t = true ∧
      opsCost pen (backtraceF pen cfg p t s ((t.length : ℤ) - (p.length : ℤ))
        p.length) = s := by
  have hoff : (mwfS pen cfg p t s).off ((t.length : ℤ) - (p.length : ℤ))
      = some p.length := eq_of_beq h
  obtain ⟨hal, hcost⟩ := btAux_spec pen cfg p t s s (le_refl s) _ _ hoff
  rw [List.take_length] at hal
  rw [show (((p.length : ℤ)) + ((t.length : ℤ) - (p.length : ℤ))).toNat
      = t.length by omega] at hal
  rw [List.take_length] at hal
  exact ⟨hal, hcost⟩

/-- Any score returned under a disabled-reduction configuration equals
the reference DP optimum (shared kernel of the optimality claims). -/
theorem align_score_plain_eq_dp
    (a : wavefront_aligner_t) (p t : List Char) (r : ℕ)
    (hnone : a.reduction.reduction_strategy
      = wavefront_reduction_type.wavefront_reduction_none)
    (hs : (wavefront_align a p t).score = some r) :
    r = editDP a.penalties p t := by
  have hs2 : (alignLoop a p t (scoreFuel a.penalties p t) 0).score = some r := hs
  have hstatus := alignLoop_score_status a p t _ 0 r hs
  obtain ⟨r2, _, hreach, hmin, hscore, _⟩ :=
    alignLoop_success_spec a p t _ 0 hstatus
  have hr2 : r2 = r := by
    rw [hs2] at hscore
    exact Option.some_inj.mp hscore.symm
  subst hr2
  have h1 := reached_sound a.penalties a.reduction p t r2 hreach
  obtain ⟨s2, hs2le, hs2r⟩ := plain_exists_reach a.penalties a.reduction p t hnone
  have h2 : ¬(s2 < r2) := by
    intro hc
    rw [hmin s2 (by omega) hc] at hs2r
    exact Bool.false_ne_true hs2r
  omega

/-- C1: for every pattern/text pair and penalty set, with reduction
disabled (`reduction_strategy = wavefront_reduction_none`), any score
returned by the wavefront aligner equals the optimal score of the
reference full dynamic-programming alignment under the same penalties. -/
theorem wavefront_aligner_score_matches_reference_dp
    (a : wavefront_aligner_t) (p t : List Char) (r : ℕ)
    (hnone : a.reduction.reduction_strategy
      = wavefront_reduction_type.wavefront_reduction_none)
    (hs : (wavefront_align a p t).score = some r) :
    r = editDP a.penalties p t :=
  align_score_plain_eq_dp a p t r hnone hs

theorem wavefront_aligner_score_matches_reference_dp_witness :
    exAlignerFull.reduction.reduction_strategy
        = wavefront_reduction_type.wavefront_reduction_none ∧
      (wavefront_align exAlignerFull [Char.ofNat 97] [Char.ofNat 98]).score
        = some 1 ∧
      1 = editDP exAlignerFull.penalties [Char.ofNat 97] [Char.ofNat 98] :=
  ⟨rfl, by decide,
    wavefront_aligner_score_matches_reference_dp exAlignerFull
      [Char.ofNat 97] [Char.ofNat 98] 1 rfl (by decide)⟩

/-- C2: for every successful full-alignment invocation, replaying the
returned CIGAR against pattern and text reproduces both sequences
exactly and its total cost under the active penalty set equals the
returned score. -/
theorem wavefront_align_cigar_replay_valid
    (a : wavefront_aligner_t) (p t : List Char) (r : ℕ) (cg : List Op)
    (hscope : a.alignment_scope = alignment_scope_t.alignment_scope_alignment)
    (hr : (wavefront_align a p t).score = some r)
    (hcg : (wavefront_align a p t).cigar = some cg) :
    alignsB cg p t = true ∧ opsCost a.penalties cg = r := by
  have hr2a : (alignLoop a p t (scoreFuel a.penalties p t) 0).score = some r := hr
  have hcg2 : (alignLoop a p t (scoreFuel a.penalties p t) 0).cigar = some cg := hcg
  have hstatus := alignLoop_score_status a p t _ 0 r hr
  obtain ⟨r2, _, hreach, _, hscore, hcigar⟩ :=
    alignLoop_success_spec a p t _ 0 hstatus
  have hr2 : r2 = r := by
    rw [hr2a] at hscore
    exact Option.some_inj.mp hscore.symm
  subst hr2
  rw [if_pos hscope] at hcigar
  rw [hcg2] at hcigar
  have hcgeq := Option.some_inj.mp hcigar.symm
  rw [← hcgeq]
  exact reached_replay a.penalties a.reduction p t r2 hreach

theorem wavefront_align_cigar_replay_valid_witness :
    exAlignerFull.alignment_scope
        = alignment_scope_t.alignment_scope_alignment ∧
      (wavefront_align exAlignerFull [Char.ofNat 97] [Char.ofNat 98]).score
        = some 1 ∧
      (wavefront_align exAlignerFull [Char.ofNat 97] [Char.ofNat 98]).cigar
        = some [Op.sub] ∧
      (alignsB [Op.sub] [Char.ofNat 97] [Char.ofNat 98] = true ∧
        opsCost exAlignerFull.penalties [Op.sub] = 1) :=
  ⟨rfl, by decide, by decide,
    wavefront_align_cigar_replay_valid exAlignerFull
      [Char.ofNat 97] [Char.ofNat 98] 1 [Op.sub] rfl (by decide) (by decide)⟩

/-- C3: with reduction disabled and limits ample, the score loop
terminates successfully at the first (smallest) score whose M-wavefront
holds diagonal `text_length − pattern_length` with offset
`pattern_length`, and that score is the one reported — it equals the
reference optimum under score-only scope. -/
theorem wavefront_align_first_reach_termination
    (a : wavefront_aligner_t) (p t : List Char)
    (hnone : a.reduction.reduction_strategy
      = wavefront_reduction_type.wavefront_reduction_none)
    (hscope : a.alignment_scope = alignment_scope_t.alignment_scope_score)
    (hlim1 : editDP a.penalties p t ≤ a.max_alignment_score)
    (hlim2 : ∀ s, s ≤ editDP a.penalties p t → memUsed a s ≤ a.max_memory_used) :
    ∃ s, wavefront_align a p t
        = ⟨wf_align_status.wf_align_successful, some s, none⟩ ∧
      reachedB a.penalties a.reduction p t s = true ∧
      (∀ j, j < s → reachedB a.penalties a.reduction p t j = false) ∧
      s = editDP a.penalties p t := by
  obtain ⟨s2, hs2le, hs2r⟩ := plain_exists_reach a.penalties a.reduction p t hnone
  have hfuel : s2 < 0 + scoreFuel a.penalties p t := by
    have := editDP_le_total a.penalties p t
    unfold scoreFuel
    omega
  have hstatus := alignLoop_complete a p t (scoreFuel a.penalties p t) 0 s2
    hs2r (by omega) hfuel
    (fun j _ hj2 => by omega)
    (fun j _ hj2 => by have := hlim2 j (by omega); omega)
  obtain ⟨r, _, hreach, hmin, hscore, hcigar⟩ :=
    alignLoop_success_spec a p t _ 0 hstatus
  have hreq : r = editDP a.penalties p t := by
    have h1 := reached_sound a.penalties a.reduction p t r hreach
    have h2 : ¬(s2 < r) := by
      intro hc
      rw [hmin s2 (by omega) hc] at hs2r
      exact Bool.false_ne_true hs2r
    omega
  refine ⟨r, ?_, hreach, fun j hj => hmin j (by omega) hj, hreq⟩
  rw [hscope] at hcigar
  rw [if_neg (by intro hc; exact absurd hc (by simp))] at hcigar
  show alignLoop a p t (scoreFuel a.penalties p t) 0 = _
  rcases hres : alignLoop a p t (scoreFuel a.penalties p t) 0 with ⟨st, sc, cg⟩
  rw [hres] at hstatus hscore hcigar
  simp only at hstatus hscore hcigar
  rw [hstatus, hscore, hcigar]

theorem wavefront_align_first_reach_termination_witness :
    (exAlignerScore.reduction.reduction_strategy
        = wavefront_reduction_type.wavefront_reduction_none ∧
      exAlignerScore.alignment_scope
        = alignment_scope_t.alignment_scope_score ∧
      editDP exAlignerScore.penalties [Char.ofNat 97] [Char.ofNat 98]
        ≤ exAlignerScore.max_alignment_score ∧
      (∀ s, s ≤ editDP exAlignerScore.penalties [Char.ofNat 97] [Char.ofNat 98] →
        memUsed exAlignerScore s ≤ exAlignerScore.max_memory_used)) ∧
    (∃ s, wavefront_align exAlignerScore [Char.ofNat 97] [Char.ofNat 98]
        = ⟨wf_align_status.wf_align_successful, some s, none⟩ ∧
      reachedB exAlignerScore.penalties exAlignerScore.reduction
        [Char.ofNat 97] [Char.ofNat 98] s = true ∧
      (∀ j, j < s → reachedB exAlignerScore.penalties exAlignerScore.reduction
        [Char.ofNat 97] [Char.ofNat 98] j = false) ∧
      s = editDP exAlignerScore.penalties [Char.ofNat 97] [Char.ofNat 98]) :=
  ⟨⟨rfl, rfl, by decide, by decide⟩,
    wavefront_align_first_reach_termination exAlignerScore
      [Char.ofNat 97] [Char.ofNat 98] rfl rfl (by decide) (by decide)⟩

theorem omax_self (a : Option ℕ) : omax a a = a := by
  cases a with
  | none => rfl
  | some o => simp [omax]

/-- C4: computing a score layer is idempotent — recomputing `compute(s)`
over the same already-computed predecessor wavefronts yields exactly the
stored layer, so no diagonal's stored furthest-reaching offset changes
(joining the recomputed offsets into the stored ones by maximum is the
identity). -/
theorem compute_layer_idempotent (pen : LinealPen)
    (cfg : wavefront_reduction_t) (p t : List Char) (s : ℕ) (hs : 1 ≤ s) :
    recomputeLayer pen cfg p t s = mwfS pen cfg p t s ∧
      ∀ k, omax ((recomputeLayer pen cfg p t s).off k)
          ((mwfS pen cfg p t s).off k)
        = (mwfS pen cfg p t s).off k := by
  obtain ⟨s0, rfl⟩ : ∃ s0, s = s0 + 1 := ⟨s - 1, by omega⟩
  have heq : recomputeLayer pen cfg p t (s0 + 1) = mwfS pen cfg p t (s0 + 1) := by
    rw [mwfS_succ]
    rfl
  exact ⟨heq, fun k => by rw [heq, omax_self]⟩

theorem compute_layer_idempotent_witness :
    (1 : ℕ) ≤ 1 ∧
      (recomputeLayer editPen exCfgNone [Char.ofNat 97] [Char.ofNat 98] 1
          = mwfS editPen exCfgNone [Char.ofNat 97] [Char.ofNat 98] 1 ∧
        ∀ k, omax ((recomputeLayer editPen exCfgNone [Char.ofNat 97]
              [Char.ofNat 98] 1).off k)
            ((mwfS editPen exCfgNone [Char.ofNat 97] [Char.ofNat 98] 1).off k)
          = (mwfS editPen exCfgNone [Char.ofNat 97] [Char.ofNat 98] 1).off k) :=
  ⟨le_refl 1,
    compute_layer_idempotent editPen exCfgNone [Char.ofNat 97] [Char.ofNat 98]
      1 (le_refl 1)⟩

theorem slab_live_subset (scope : ℕ) :
    ∀ s, slab_live scope s ⊆ Finset.Icc (s - scope) s := by
  intro s
  induction s with
  | zero =>
      intro x hx
      simp only [slab_live, Finset.mem_singleton] at hx
      simp [hx]
  | succ s ih =>
      intro x hx
      simp only [slab_live, Finset.mem_insert, Finset.mem_filter] at hx
      simp only [Finset.mem_Icc]
      rcases hx with rfl | ⟨hmem, hkeep⟩
      · omega
      · have := Finset.mem_Icc.mp (ih hmem)
        omega

/-- C5: in modular memory mode, at every point of the score sweep at
most `max_score_scope + 1` score layers per family are simultaneously
live in the slab, and the resident wavefront storage is bounded by
`(max_score_scope + 1) ×` the maximum band width, independently of the
total score. -/
theorem modular_slab_memory_bound (a : wavefront_aligner_t)
    (hmod : a.memory_modular = true) :
    (∀ s, (slab_live a.max_score_scope s).card ≤ a.max_score_scope + 1) ∧
      (∀ (width : ℕ → ℕ) (W s : ℕ), (∀ i, width i ≤ W) →
        (slab_live a.max_score_scope s).sum width
          ≤ (a.max_score_scope + 1) * W) := by
  have hcard : ∀ s, (slab_live a.max_score_scope s).card
      ≤ a.max_score_scope + 1 := by
    intro s
    have h1 := Finset.card_le_card (slab_live_subset a.max_score_scope s)
    rw [Nat.card_Icc] at h1
    omega
  refine ⟨hcard, ?_⟩
  intro width W s hw
  have h1 := Finset.sum_le_card_nsmul (slab_live a.max_score_scope s) width W
    (fun x _ => hw x)
  rw [smul_eq_mul] at h1
  calc (slab_live a.max_score_scope s).sum width
      ≤ (slab_live a.max_score_scope s).card * W := h1
    _ ≤ (a.max_score_scope + 1) * W := Nat.mul_le_mul_right W (hcard s)

theorem modular_slab_memory_bound_witness :
    exAlignerModular.memory_modular = true ∧
      ((∀ s, (slab_live exAlignerModular.max_score_scope s).card
          ≤ exAlignerModular.max_score_scope + 1) ∧
        (∀ (width : ℕ → ℕ) (W s : ℕ), (∀ i, width i ≤ W) →
          (slab_live exAlignerModular.max_score_scope s).sum width
            ≤ (exAlignerModular.max_score_scope + 1) * W)) :=
  ⟨rfl, modular_slab_memory_bound exAlignerModular rfl⟩

theorem mem_range_map_int (n : ℕ) (f : ℕ → ℤ) (k : ℤ)
    (h : k ∈ (List.range n).map f) : ∃ i, i < n ∧ f i = k := by
  obtain ⟨i, hi, hk⟩ := List.mem_map.mp h
  exact ⟨i, List.mem_range.mp hi, hk⟩

theorem diagList_mem_bounds (L : WFLayer) (k : ℤ) (h : k ∈ diagList L) :
    L.lo ≤ k ∧ k ≤ L.hi := by
  have h2 : k ∈ (List.range (L.hi + 1 - L.lo).toNat).map
      (fun i => L.lo + Int.ofNat i) := h
  obtain ⟨i, hi, hk⟩ := mem_range_map_int _ _ k h2
  have hk2 : L.lo + Int.ofNat i = k := hk
  simp only [Int.ofNat_eq_natCast] at hk2
  omega

/-- C6: the adaptive reduction acts only when the layer's diagonal span
exceeds `min_wavefront_length`; it then drops exactly the diagonals
whose offset lags the layer's maximum offset by more than
`max_distance_threshold`, and the resulting `[lo, hi]` range is always a
subrange of the pre-reduction range. -/
theorem wavefront_reduce_adaptive_spec (ml thr : ℕ) (L : WFLayer) :
    (L.hi + 1 - L.lo ≤ (ml : ℤ) → wavefront_reduce ml thr L = L) ∧
    (∀ mo, maxOffL L = some mo → (ml : ℤ) < L.hi + 1 - L.lo →
      (∀ k o, L.off k = some o →
        (((wavefront_reduce ml thr L).off k = none) ↔ thr < mo - o) ∧
        (mo - o ≤ thr → (wavefront_reduce ml thr L).off k = L.off k)) ∧
      (∀ k, L.off k = none → (wavefront_reduce ml thr L).off k = none)) ∧
    (L.lo ≤ (wavefront_reduce ml thr L).lo ∧
      (wavefront_reduce ml thr L).hi ≤ L.hi) := by
  refine ⟨?_, ?_, ?_⟩
  · intro hspan
    unfold wavefront_reduce
    rw [if_pos hspan]
  · intro mo hmo hspan
    have hred : (wavefront_reduce ml thr L).off = fun k =>
        if laggy thr mo (L.off k) then none else L.off k := by
      unfold wavefront_reduce
      rw [if_neg (by omega), hmo]
    constructor
    · intro k o hk
      rw [hred]
      simp only
      rw [hk]
      constructor
      · constructor
        · intro hnone
          by_cases hl : laggy thr mo (some o) = true
          · unfold laggy at hl
            exact of_decide_eq_true hl
          · rw [if_neg hl] at hnone
            exact absurd hnone (by simp)
        · intro hlag
          rw [if_pos (by unfold laggy; exact decide_eq_true hlag)]
      · intro hle
        rw [if_neg (by unfold laggy; simp; omega)]
    · intro k hk
      rw [hred]
      simp only
      rw [hk]
      by_cases hl : laggy thr mo none = true
      · rw [if_pos hl]
      · exact absurd rfl hl
  · unfold wavefront_reduce
    by_cases hspan : L.hi + 1 - L.lo ≤ (ml : ℤ)
    · rw [if_pos hspan]
      exact ⟨le_refl _, le_refl _⟩
    · rw [if_neg hspan]
      cases hmo : maxOffL L with
      | none => exact ⟨le_refl _, le_refl _⟩
      | some mo =>
          simp only
          constructor
          · cases hh : ((diagList L).filter
                (fun k => !(laggy thr mo (L.off k)))).head? with
            | none => simp [hh]
            | some h0 =>
                have hmem : h0 ∈ (diagList L).filter
                    (fun k => !(laggy thr mo (L.off k))) :=
                  List.mem_of_mem_head? (by rw [hh]; rfl)
                have := (diagList_mem_bounds L h0
                  (List.mem_of_mem_filter hmem)).1
                simpa [hh] using this
          · cases hh : ((diagList L).filter
                (fun k => !(laggy thr mo (L.off k)))).getLast? with
            | none => simp [hh]
            | some h0 =>
                have hmem : h0 ∈ (diagList L).filter
                    (fun k => !(laggy thr mo (L.off k))) :=
                  List.mem_of_mem_getLast? (by rw [hh]; rfl)
                have := (diagList_mem_bounds L h0
                  (List.mem_of_mem_filter hmem)).2
                simpa [hh] using this

theorem wavefront_reduce_adaptive_spec_witness :
    ((exLayer.hi + 1 - exLayer.lo ≤ ((3 : ℕ) : ℤ) →
        wavefront_reduce 3 2 exLayer = exLayer) ∧
      (maxOffL exLayer = some 5 ∧ ((1 : ℕ) : ℤ) < exLayer.hi + 1 - exLayer.lo ∧
        exLayer.off 1 = some 0 ∧ (2 : ℕ) < 5 - 0) ∧
      ((wavefront_reduce 1 2 exLayer).off 1 = none ∧
        exLayer.lo ≤ (wavefront_reduce 1 2 exLayer).lo ∧
        (wavefront_reduce 1 2 exLayer).hi ≤ exLayer.hi)) := by
  refine ⟨(wavefront_reduce_adaptive_spec 3 2 exLayer).1,
    ⟨by decide, by decide, by decide, by decide⟩, ?_, ?_⟩
  · exact (((wavefront_reduce_adaptive_spec 1 2 exLayer).2.1 5 (by decide)
      (by decide)).1 1 0 (by decide)).1.mpr (by decide)
  · exact (wavefront_reduce_adaptive_spec 1 2 exLayer).2.2

/-- C9: `wavefront_aligner_delete` performs a full teardown and releases
the memory allocator exactly when the aligner owns it; under
`wavefront_aligner_new`, ownership holds exactly when no external
allocator was supplied. -/
theorem delete_releases_allocator_iff_owned :
    (∀ a : wavefront_aligner_t,
      ((wavefront_aligner_delete a).allocator_freed = true
          ↔ a.mm_allocator_own = true) ∧
        (wavefront_aligner_delete a).wavefronts_freed = true ∧
        (wavefront_aligner_delete a).slab_freed = true ∧
        (wavefront_aligner_delete a).cigar_freed = true) ∧
    (∀ (pl tl : ℕ) (attr : wavefront_aligner_attr_t),
      (wavefront_aligner_delete
          (wavefront_aligner_new pl tl attr)).allocator_freed
        = attr.mm_allocator.isNone) :=
  ⟨fun a => ⟨Iff.rfl, rfl, rfl, rfl⟩, fun pl tl attr => rfl⟩

/-- C10: every aligner built by `wavefront_aligner_new` couples the two
memory-mode flags to the single `low_memory` attribute: `memory_modular`
and `bt_piggyback` are both set exactly when the low-memory strategy is
requested, so they are always equal. -/
theorem new_couples_memory_modular_and_piggyback
    (pl tl : ℕ) (attr : wavefront_aligner_attr_t) :
    (wavefront_aligner_new pl tl attr).memory_modular
        = (wavefront_aligner_new pl tl attr).bt_piggyback ∧
      (wavefront_aligner_new pl tl attr).memory_modular = attr.low_memory ∧
      (wavefront_aligner_new pl tl attr).bt_piggyback = attr.low_memory :=
  ⟨rfl, rfl, rfl⟩

/-- C7: a limit check that finds the score above `max_alignment_score`
(respectively the memory above `max_memory_used`) aborts the alignment
with the corresponding distinct status; aborted invocations produce no
score and no partial CIGAR; and the aligner state is reusable after
`clear` — clearing after any run restores exactly the cleared fresh
state, so subsequent alignments are unaffected. -/
theorem limit_checks_abort_distinct_and_recoverable
    (a : wavefront_aligner_t) (p t : List Char) :
    ((wavefront_align a p t).status ≠ wf_align_status.wf_align_successful →
      (wavefront_align a p t).score = none ∧
        (wavefront_align a p t).cigar = none) ∧
    (∀ fuel s, s % a.limit_probe_interval = 0 → a.max_alignment_score < s →
      alignLoop a p t (fuel + 1) s
        = ⟨wf_align_status.wf_align_max_score_reached, none, none⟩) ∧
    (∀ fuel s, s % a.limit_probe_interval = 0 → ¬(a.max_alignment_score < s) →
      a.max_memory_used < memUsed a s →
      alignLoop a p t (fuel + 1) s
        = ⟨wf_align_status.wf_align_max_memory_reached, none, none⟩) ∧
    (wf_align_status.wf_align_max_score_reached
      ≠ wf_align_status.wf_align_max_memory_reached) ∧
    (wavefront_aligner_clear (wavefront_align_run a p t)
      = wavefront_aligner_clear a) ∧
    (∀ p2 t2, wavefront_align
        (wavefront_aligner_clear (wavefront_align_run a p t)) p2 t2
      = wavefront_align (wavefront_aligner_clear a) p2 t2) := by
  refine ⟨?_, ?_, ?_, by simp, rfl, fun p2 t2 => rfl⟩
  · intro h
    exact alignLoop_abort_none a p t (scoreFuel a.penalties p t) 0 h
  · intro fuel s h1 h2
    rw [alignLoop_succ_eq, if_pos ⟨h1, h2⟩]
  · intro fuel s h1 h2 h3
    rw [alignLoop_succ_eq, if_neg (fun hc => h2 hc.2), if_pos ⟨h1, h3⟩]

theorem limit_checks_abort_distinct_and_recoverable_witness :
    ((wavefront_align exAlignerTight [Char.ofNat 97] [Char.ofNat 98]).status
        ≠ wf_align_status.wf_align_successful ∧
      (wavefront_align exAlignerTight [Char.ofNat 97] [Char.ofNat 98]).status
        = wf_align_status.wf_align_max_score_reached) ∧
    ((wavefront_align exAlignerTight [Char.ofNat 97] [Char.ofNat 98]).score
        = none ∧
      (wavefront_align exAlignerTight [Char.ofNat 97] [Char.ofNat 98]).cigar
        = none) ∧
    ((1 : ℕ) % exAlignerTight.limit_probe_interval = 0 ∧
      exAlignerTight.max_alignment_score < 1 ∧
      alignLoop exAlignerTight [Char.ofNat 97] [Char.ofNat 98] 1 1
        = ⟨wf_align_status.wf_align_max_score_reached, none, none⟩) ∧
    wavefront_aligner_clear
        (wavefront_align_run exAlignerTight [Char.ofNat 97] [Char.ofNat 98])
      = wavefront_aligner_clear exAlignerTight :=
  ⟨⟨by decide, by decide⟩,
    (limit_checks_abort_distinct_and_recoverable exAlignerTight
      [Char.ofNat 97] [Char.ofNat 98]).1 (by decide),
    ⟨by decide, by decide,
      (limit_checks_abort_distinct_and_recoverable exAlignerTight
        [Char.ofNat 97] [Char.ofNat 98]).2.1 0 1 (by decide) (by decide)⟩,
    (limit_checks_abort_distinct_and_recoverable exAlignerTight
      [Char.ofNat 97] [Char.ofNat 98]).2.2.2.2.1⟩

theorem baseLayer_off_le (p t : List Char) (k : ℤ) (o : ℕ)
    (h : (baseLayer p t).off k = some o) : o ≤ p.length := by
  obtain ⟨rfl, rfl⟩ := baseLayer_off_some p t k o h
  exact extendo_le_len p t 0 0 (by omega)

theorem wfNext_mwfL_off_le (pen : LinealPen) (cfg : wavefront_reduction_t)
    (p t : List Char) (s : ℕ) (k : ℤ) (o : ℕ)
    (h : (wfNext pen p t (mwfL pen cfg p t s)).off k = some o) :
    o ≤ p.length := by
  have h2 : (candsAt pen cfg p t s k).map (extendo p t k) = some o := h
  cases hc : candsAt pen cfg p t s k with
  | none => rw [hc] at h2; exact absurd h2 (by simp)
  | some v =>
      rw [hc, Option.map_some'] at h2
      obtain rfl : extendo p t k v = o := Option.some_inj.mp h2
      have hvm : v ≤ p.length := by
        rcases candsOf_cases p t _ _ k v hc with hm | hi | hd
        · obtain ⟨o2, _, rfl, ho2m, _⟩ := candMisF_some p t _ k v hm
          omega
        · obtain ⟨ho2, _⟩ := candInsF_some t _ k v hi
          exact (lbAt_off_some pen cfg p t s (k - 1) v ho2).2 |>
            (fun hst => (mwfS_valid pen cfg p t _ (k - 1) v hst).1)
        · obtain ⟨o2, _, rfl, ho2m⟩ := candDelF_some p _ k v hd
          omega
      exact extendo_le_len p t k v hvm

theorem maxOffL_le (L : WFLayer) (B : ℕ)
    (hB : ∀ k o, L.off k = some o → o ≤ B) (mo : ℕ)
    (h : maxOffL L = some mo) : mo ≤ B := by
  have hmem : mo ∈ (diagList L).filterMap L.off :=
    List.max?_mem (fun _ _ => max_choice _ _) h
  obtain ⟨k, _, hk⟩ := List.mem_filterMap.mp hmem
  exact hB k mo hk

theorem wavefront_reduce_off_preserve (ml thr : ℕ) (L : WFLayer) (B : ℕ)
    (hB : ∀ k o, L.off k = some o → o ≤ B) (hthr : B ≤ thr) (k : ℤ) :
    (wavefront_reduce ml thr L).off k = L.off k := by
  unfold wavefront_reduce
  by_cases hspan : L.hi + 1 - L.lo ≤ (ml : ℤ)
  · rw [if_pos hspan]
  · rw [if_neg hspan]
    cases hmo : maxOffL L with
    | none => rfl
    | some mo =>
        simp only
        cases hk : L.off k with
        | none =>
            rw [if_pos (by unfold laggy; rfl)]
        | some o =>
            rw [if_neg (by
              unfold laggy
              simp only [decide_eq_true_eq]
              have h1 := maxOffL_le L B hB mo hmo
              omega)]

theorem reduceMaybe_off_preserve (cfg : wavefront_reduction_t) (L : WFLayer)
    (B : ℕ) (hB : ∀ k o, L.off k = some o → o ≤ B)
    (hthr : B ≤ cfg.max_distance_threshold) (k : ℤ) :
    (reduceMaybe cfg L).off k = L.off k := by
  unfold reduceMaybe
  cases hs : cfg.reduction_strategy with
  | wavefront_reduction_none => rfl
  | wavefront_reduction_adaptive =>
      exact wavefront_reduce_off_preserve _ _ L B hB hthr k

theorem candMisF_congr (p t : List Char) (lx lx2 : WFLayer) (k : ℤ)
    (h : lx.off k = lx2.off k) : candMisF p t lx k = candMisF p t lx2 k := by
  unfold candMisF
  rw [h]

theorem candInsF_congr (t : List Char) (lb lb2 : WFLayer) (k : ℤ)
    (h : lb.off (k - 1) = lb2.off (k - 1)) :
    candInsF t lb k = candInsF t lb2 k := by
  unfold candInsF
  rw [h]

theorem candDelF_congr (p : List Char) (lb lb2 : WFLayer) (k : ℤ)
    (h : lb.off (k + 1) = lb2.off (k + 1)) :
    candDelF p lb k = candDelF p lb2 k := by
  unfold candDelF
  rw [h]

/-- With a distance threshold at least the pattern length, no stored
offset can lag the layer maximum beyond the threshold, so the adaptive
engine stores exactly the same offsets as the plain engine. -/
theorem mwfS_off_adaptive_eq (pen : LinealPen)
    (cfgA cfgN : wavefront_reduction_t) (p t : List Char)
    (hN : cfgN.reduction_strategy
      = wavefront_reduction_type.wavefront_reduction_none)
    (hthr : p.length ≤ cfgA.max_distance_threshold) :
    ∀ s k, (mwfS pen cfgA p t s).off k = (mwfS pen cfgN p t s).off k := by
  intro s
  induction s using Nat.strong_induction_on with
  | _ s ih =>
      cases s with
      | zero =>
          intro k
          rw [mwfS_zero, mwfS_zero, reduceMaybe_none cfgN hN]
          exact reduceMaybe_off_preserve cfgA (baseLayer p t) p.length
            (baseLayer_off_le p t) hthr k
      | succ s =>
          have hpred : ∀ q, 1 ≤ q → ∀ k2,
              (predLayer q (mwfL pen cfgA p t s)).off k2
                = (predLayer q (mwfL pen cfgN p t s)).off k2 := by
            intro q hq k2
            rw [predLayer_mwfL pen cfgA p t s q hq,
              predLayer_mwfL pen cfgN p t s q hq]
            by_cases hle : q ≤ s + 1
            · rw [if_pos hle, if_pos hle]
              exact ih (s + 1 - q) (by omega) k2
            · rw [if_neg hle, if_neg hle]
          have hnext : ∀ k2, (wfNext pen p t (mwfL pen cfgA p t s)).off k2
              = (wfNext pen p t (mwfL pen cfgN p t s)).off k2 := by
            intro k2
            show (candsOf p t (predLayer pen.x (mwfL pen cfgA p t s))
                (predLayer pen.b (mwfL pen cfgA p t s)) k2).map (extendo p t k2)
              = (candsOf p t (predLayer pen.x (mwfL pen cfgN p t s))
                (predLayer pen.b (mwfL pen cfgN p t s)) k2).map (extendo p t k2)
            unfold candsOf
            rw [candMisF_congr p t _ _ k2 (hpred pen.x pen.x_pos k2),
              candInsF_congr t _ _ k2 (hpred pen.b pen.b_pos (k2 - 1)),
              candDelF_congr p _ _ k2 (hpred pen.b pen.b_pos (k2 + 1))]
          intro k
          rw [mwfS_succ, mwfS_succ, reduceMaybe_none cfgN hN]
          rw [reduceMaybe_off_preserve cfgA _ p.length
            (wfNext_mwfL_off_le pen cfgA p t s) hthr k]
          exact hnext k

/-- The termination test agrees between the adaptive and plain engines
when the threshold is ample. -/
theorem reachedB_adaptive_eq (pen : LinealPen)
    (cfgA cfgN : wavefront_reduction_t) (p t : List Char)
    (hN : cfgN.reduction_strategy
      = wavefront_reduction_type.wavefront_reduction_none)
    (hthr : p.length ≤ cfgA.max_distance_threshold) (s : ℕ) :
    reachedB pen cfgA p t s = reachedB pen cfgN p t s := by
  unfold reachedB
  rw [mwfS_off_adaptive_eq pen cfgA cfgN p t hN hthr s]

theorem candsAt_adaptive_eq (pen : LinealPen)
    (cfgA cfgN : wavefront_reduction_t) (p t : List Char)
    (hN : cfgN.reduction_strategy
      = wavefront_reduction_type.wavefront_reduction_none)
    (hthr : p.length ≤ cfgA.max_distance_threshold) (s : ℕ) (k : ℤ) :
    candsAt pen cfgA p t s k = candsAt pen cfgN p t s k ∧
      candMisF p t (lxAt pen cfgA p t s) k
        = candMisF p t (lxAt pen cfgN p t s) k ∧
      candInsF t (lbAt pen cfgA p t s) k
        = candInsF t (lbAt pen cfgN p t s) k := by
  have hpred : ∀ q, 1 ≤ q → ∀ k2,
      (predLayer q (mwfL pen cfgA p t s)).off k2
        = (predLayer q (mwfL pen cfgN p t s)).off k2 := by
    intro q hq k2
    rw [predLayer_mwfL pen cfgA p t s q hq, predLayer_mwfL pen cfgN p t s q hq]
    by_cases hle : q ≤ s + 1
    · rw [if_pos hle, if_pos hle]
      exact mwfS_off_adaptive_eq pen cfgA cfgN p t hN hthr (s + 1 - q) k2
    · rw [if_neg hle, if_neg hle]
  refine ⟨?_, ?_, ?_⟩
  · show candsOf p t (predLayer pen.x (mwfL pen cfgA p t s))
        (predLayer pen.b (mwfL pen cfgA p t s)) k = _
    unfold candsOf
    rw [candMisF_congr p t _ _ k (hpred pen.x pen.x_pos k),
      candInsF_congr t _ _ k (hpred pen.b pen.b_pos (k - 1)),
      candDelF_congr p _ _ k (hpred pen.b pen.b_pos (k + 1))]
    rfl
  · exact candMisF_congr p t _ _ k (hpred pen.x pen.x_pos k)
  · exact candInsF_congr t _ _ k (hpred pen.b pen.b_pos (k - 1))

/-- The reconstructed CIGAR agrees between the adaptive and plain
engines when the threshold is ample. -/
theorem btAux_adaptive_eq (pen : LinealPen)
    (cfgA cfgN : wavefront_reduction_t) (p t : List Char)
    (hN : cfgN.reduction_strategy
      = wavefront_reduction_type.wavefront_reduction_none)
    (hthr : p.length ≤ cfgA.max_distance_threshold) :
    ∀ (fuel s : ℕ) (k : ℤ) (o : ℕ),
      btAux pen cfgA p t fuel s k o = btAux pen cfgN p t fuel s k o := by
  intro fuel
  induction fuel with
  | zero => intro s k o; rfl
  | succ fuel ih =>
      intro s k o
      cases s with
      | zero => rfl
      | succ s0 =>
          obtain ⟨hca, hcm, hci⟩ :=
            candsAt_adaptive_eq pen cfgA cfgN p t hN hthr s0 k
          show (match candsAt pen cfgA p t s0 k with
            | none => []
            | some v =>
                if candMisF p t (lxAt pen cfgA p t s0) k = some v then
                  btAux pen cfgA p t fuel (s0 + 1 - pen.x) k (v - 1)
                    ++ Op.sub :: List.replicate (o - v) Op.eq
                else if candInsF t (lbAt pen cfgA p t s0) k = some v then
                  btAux pen cfgA p t fuel (s0 + 1 - pen.b) (k - 1) v
                    ++ Op.ins :: List.replicate (o - v) Op.eq
                else
                  btAux pen cfgA p t fuel (s0 + 1 - pen.b) (k + 1) (v - 1)
                    ++ Op.del :: List.replicate (o - v) Op.eq)
            = (match candsAt pen cfgN p t s0 k with
            | none => []
            | some v =>
                if candMisF p t (lxAt pen cfgN p t s0) k = some v then
                  btAux pen cfgN p t fuel (s0 + 1 - pen.x) k (v - 1)
                    ++ Op.sub :: List.replicate (o - v) Op.eq
                else if candInsF t (lbAt pen cfgN p t s0) k = some v then
                  btAux pen cfgN p t fuel (s0 + 1 - pen.b) (k - 1) v
                    ++ Op.ins :: List.replicate (o - v) Op.eq
                else
                  btAux pen cfgN p t fuel (s0 + 1 - pen.b) (k + 1) (v - 1)
                    ++ Op.del :: List.replicate (o - v) Op.eq)
          rw [hca, hcm, hci]
          cases hc : candsAt pen cfgN p t s0 k with
          | none => rfl
          | some v =>
              simp only
              rw [ih (s0 + 1 - pen.x) k (v - 1), ih (s0 + 1 - pen.b) (k - 1) v,
                ih (s0 + 1 - pen.b) (k + 1) (v - 1)]

theorem backtraceF_adaptive_eq (pen : LinealPen)
    (cfgA cfgN : wavefront_reduction_t) (p t : List Char)
    (hN : cfgN.reduction_strategy
      = wavefront_reduction_type.wavefront_reduction_none)
    (hthr : p.length ≤ cfgA.max_distance_threshold) (s : ℕ) (k : ℤ) (o : ℕ) :
    backtraceF pen cfgA p t s k o = backtraceF pen cfgN p t s k o :=
  btAux_adaptive_eq pen cfgA cfgN p t hN hthr s s k o

/-- With an ample threshold, the whole orchestrator loop behaves
identically under the adaptive and plain configurations. -/
theorem alignLoop_adaptive_eq (a : wavefront_aligner_t)
    (cfg2 : wavefront_reduction_t) (p t : List Char)
    (hN : cfg2.reduction_strategy
      = wavefront_reduction_type.wavefront_reduction_none)
    (hthr : p.length ≤ a.reduction.max_distance_threshold) :
    ∀ (fuel s : ℕ), alignLoop a p t fuel s
      = alignLoop { a with reduction := cfg2 } p t fuel s := by
  intro fuel
  induction fuel with
  | zero => intro s; rfl
  | succ fuel ih =>
      intro s
      rw [alignLoop_succ_eq, alignLoop_succ_eq]
      by_cases h1 : s % a.limit_probe_interval = 0 ∧ a.max_alignment_score < s
      · have h1b : s % ({ a with reduction := cfg2 }
            : wavefront_aligner_t).limit_probe_interval = 0 ∧
            ({ a with reduction := cfg2 }
              : wavefront_aligner_t).max_alignment_score < s := h1
        rw [if_pos h1, if_pos h1b]
      · have h1b : ¬(s % ({ a with reduction := cfg2 }
            : wavefront_aligner_t).limit_probe_interval = 0 ∧
            ({ a with reduction := cfg2 }
              : wavefront_aligner_t).max_alignment_score < s) := h1
        rw [if_neg h1, if_neg h1b]
        by_cases h2 : s % a.limit_probe_interval = 0 ∧
            a.max_memory_used < memUsed a s
        · have h2b : s % ({ a with reduction := cfg2 }
              : wavefront_aligner_t).limit_probe_interval = 0 ∧
              ({ a with reduction := cfg2 }
                : wavefront_aligner_t).max_memory_used
                < memUsed { a with reduction := cfg2 } s := h2
          rw [if_pos h2, if_pos h2b]
        · have h2b : ¬(s % ({ a with reduction := cfg2 }
              : wavefront_aligner_t).limit_probe_interval = 0 ∧
              ({ a with reduction := cfg2 }
                : wavefront_aligner_t).max_memory_used
                < memUsed { a with reduction := cfg2 } s) := h2
          rw [if_neg h2, if_neg h2b]
          have hre := reachedB_adaptive_eq a.penalties a.reduction cfg2 p t
            hN hthr s
          by_cases h3 : reachedB a.penalties a.reduction p t s = true
          · have h3b : reachedB ({ a with reduction := cfg2 }
                : wavefront_aligner_t).penalties
                ({ a with reduction := cfg2 }
                  : wavefront_aligner_t).reduction p t s = true := by
              show reachedB a.penalties cfg2 p t s = true
              rw [← hre]
              exact h3
            rw [if_pos h3, if_pos h3b]
            by_cases hsc : a.alignment_scope
                = alignment_scope_t.alignment_scope_alignment
            · have hscb : ({ a with reduction := cfg2 }
                  : wavefront_aligner_t).alignment_scope
                  = alignment_scope_t.alignment_scope_alignment := hsc
              rw [if_pos hsc, if_pos hscb]
              have hbt : backtraceF a.penalties a.reduction p t s
                  ((t.length : ℤ) - (p.length : ℤ)) p.length
                  = backtraceF a.penalties cfg2 p t s
                    ((t.length : ℤ) - (p.length : ℤ)) p.length :=
                backtraceF_adaptive_eq a.penalties a.reduction cfg2 p t
                  hN hthr s _ p.length
              rw [hbt]
            · have hscb : ¬(({ a with reduction := cfg2 }
                  : wavefront_aligner_t).alignment_scope
                  = alignment_scope_t.alignment_scope_alignment) := hsc
              rw [if_neg hsc, if_neg hscb]
          · have h3b : ¬(reachedB ({ a with reduction := cfg2 }
                : wavefront_aligner_t).penalties
                ({ a with reduction := cfg2 }
                  : wavefront_aligner_t).reduction p t s = true) := by
              show ¬(reachedB a.penalties cfg2 p t s = true)
              rw [← hre]
              exact h3
            rw [if_neg h3, if_neg h3b]
            exact ih (s + 1)

/-- C8: enabling adaptive reduction never decreases the reported score
relative to the same aligner without reduction when both find an
alignment; and when the distance threshold is at least the sequence
length (so the band never needs trimming), the result with reduction
enabled is identical to the result without reduction. -/
theorem adaptive_reduction_monotone_and_faithful :
    (∀ (a : wavefront_aligner_t) (p t : List Char) (sR sP : ℕ)
        (cfg2 : wavefront_reduction_t),
      a.reduction.reduction_strategy
        = wavefront_reduction_type.wavefront_reduction_adaptive →
      (wavefront_align a p t).score = some sR →
      cfg2.reduction_strategy
        = wavefront_reduction_type.wavefront_reduction_none →
      (wavefront_align { a with reduction := cfg2 } p t).score = some sP →
      sP ≤ sR) ∧
    (∀ (a : wavefront_aligner_t) (p t : List Char)
        (cfg2 : wavefront_reduction_t),
      a.reduction.reduction_strategy
        = wavefront_reduction_type.wavefront_reduction_adaptive →
      cfg2.reduction_strategy
        = wavefront_reduction_type.wavefront_reduction_none →
      p.length ≤ a.reduction.max_distance_threshold →
      wavefront_align a p t
        = wavefront_align { a with reduction := cfg2 } p t) := by
  constructor
  · intro a p t sR sP cfg2 hA hsR hN hsP
    have hN2 : ({ a with reduction := cfg2 }
        : wavefront_aligner_t).reduction.reduction_strategy
        = wavefront_reduction_type.wavefront_reduction_none := hN
    have h1 : sP = editDP a.penalties p t :=
      align_score_plain_eq_dp { a with reduction := cfg2 } p t sP hN2 hsP
    have hs2 : (alignLoop a p t (scoreFuel a.penalties p t) 0).score
        = some sR := hsR
    have hstatus := alignLoop_score_status a p t _ 0 sR hsR
    obtain ⟨r2, _, hreach, _, hscore, _⟩ :=
      alignLoop_success_spec a p t _ 0 hstatus
    have hr2 : r2 = sR := by
      rw [hs2] at hscore
      exact Option.some_inj.mp hscore.symm
    subst hr2
    have h2 := reached_sound a.penalties a.reduction p t r2 hreach
    omega
  · intro a p t cfg2 hA hN hthr
    exact alignLoop_adaptive_eq a cfg2 p t hN hthr
      (scoreFuel a.penalties p t) 0

theorem adaptive_reduction_monotone_and_faithful_witness :
    (exAlignerAdaptive.reduction.reduction_strategy
        = wavefront_reduction_type.wavefront_reduction_adaptive ∧
      (wavefront_align exAlignerAdaptive [Char.ofNat 97] [Char.ofNat 98]).score
        = some 1 ∧
      exCfgNone.reduction_strategy
        = wavefront_reduction_type.wavefront_reduction_none ∧
      (wavefront_align { exAlignerAdaptive with reduction := exCfgNone }
          [Char.ofNat 97] [Char.ofNat 98]).score = some 1 ∧
      (1 : ℕ) ≤ 1) ∧
    ([Char.ofNat 97].length
        ≤ exAlignerAdaptive.reduction.max_distance_threshold ∧
      wavefront_align exAlignerAdaptive [Char.ofNat 97] [Char.ofNat 98]
        = wavefront_align { exAlignerAdaptive with reduction := exCfgNone }
          [Char.ofNat 97] [Char.ofNat 98]) :=
  ⟨⟨rfl, by decide, rfl, by decide,
    adaptive_reduction_monotone_and_faithful.1 exAlignerAdaptive
      [Char.ofNat 97] [Char.ofNat 98] 1 1 exCfgNone rfl (by decide) rfl
      (by decide)⟩,
    by decide,
    adaptive_reduction_monotone_and_faithful.2 exAlignerAdaptive
      [Char.ofNat 97] [Char.ofNat 98] exCfgNone rfl rfl (by decide)⟩

end WFA2
